import Mathlib

/-!
Verification of the memora server (RESP codec, command model, string store,
session and role subsystems) against its natural-language specification.

The Rust source is shallowly embedded: strings are `List Char` (Rust `String`
is UTF-8; byte lengths are computed by `byteLen` below), machine integers are
`Nat`/`Int`, fallible code returns `Except`, and `todo!()` / `.expect(..)`
panics are modelled by explicit `panicked` / `unimplemented` constructors.
-/

namespace Memora

/-! ## Character classes (ASCII, mirroring the logos lexer of src/resp/lex.rs) -/

/-- CR or LF: the characters skipped between tokens (logos skip regex). -/
def isSkip (c : Char) : Bool := c.toNat = 13 || c.toNat = 10

/-- ASCII decimal digit. -/
def isDigitCh (c : Char) : Bool := 48 ≤ c.toNat && c.toNat ≤ 57

/-- ASCII alphabetic, the payload class of the lexer's string regex. -/
def isAlphaCh (c : Char) : Bool :=
  (97 ≤ c.toNat && c.toNat ≤ 122) || (65 ≤ c.toNat && c.toNat ≤ 90)

/-- The UTF-8 byte length of one char, as Rust `char::len_utf8`. -/
def byteLen (c : Char) : Nat :=
  if c.toNat < 128 then 1 else if c.toNat < 2048 then 2
  else if c.toNat < 65536 then 3 else 4

/-- The UTF-8 byte length of a string, as Rust `str::len`. -/
def byteLenL (s : List Char) : Nat := (s.map byteLen).sum

/-- Rust `u8::to_ascii_lowercase` lifted to chars. -/
def asciiLower (c : Char) : Char :=
  if 65 ≤ c.toNat ∧ c.toNat ≤ 90 then Char.ofNat (c.toNat + 32) else c

/-- Rust `eq_ignore_ascii_case`. -/
def eqIgnoreCase (a b : List Char) : Bool := a.map asciiLower == b.map asciiLower

/-! ## Decimal notation (the `write!` formatting of integers, and `str::parse`) -/

/-- Map a digit value to its character. -/
def digitCh : Nat → Char
  | 0 => '0' | 1 => '1' | 2 => '2' | 3 => '3' | 4 => '4'
  | 5 => '5' | 6 => '6' | 7 => '7' | 8 => '8' | _ => '9'

/-- Value of a decimal digit character. -/
def chVal (c : Char) : Nat := c.toNat - 48

/-- Fuelled most-significant-first decimal printer. -/
def natCharsAux : Nat → Nat → List Char
  | 0, _ => []
  | fuel + 1, n => if n = 0 then [] else natCharsAux fuel (n / 10) ++ [digitCh (n % 10)]

/-- Decimal representation of a natural number, as Rust `Display` for unsigned. -/
def natChars (n : Nat) : List Char := if n = 0 then ['0'] else natCharsAux (n + 1) n

/-- Decimal representation of an integer, as Rust `Display` for signed. -/
def intChars (i : Int) : List Char :=
  if i < 0 then '-' :: natChars i.natAbs else natChars i.toNat

/-- Numeric value of a digit string (most significant first). -/
def digitsVal (ds : List Char) : Nat := ds.foldl (fun a c => 10 * a + chVal c) 0

/-! ## RESP data model (src/resp/value.rs) -/

/-- `StringValue`: simple strings, bulk strings (with a null form), and null. -/
inductive RStr where
  | simple (s : List Char)
  | bulk (s : Option (List Char))
  | null
  deriving DecidableEq, Repr

/-- `Value`: RESP arrays, strings and signed 64-bit integers (integers are
modelled as unbounded `Int`; the encoder prints their decimal form). -/
inductive Value where
  | array (vs : List Value)
  | str (s : RStr)
  | int (i : Int)
  deriving Repr

mutual

/-- Boolean equality on values (used to derive decidable equality, which the
nested inductive prevents Lean from deriving automatically). -/
def valueBEq : Value → Value → Bool
  | .array a, .array b => valueListBEq a b
  | .str a, .str b => a == b
  | .int a, .int b => a == b
  | _, _ => false

/-- Boolean equality on value lists. -/
def valueListBEq : List Value → List Value → Bool
  | [], [] => true
  | a :: as, b :: bs => valueBEq a b && valueListBEq as bs
  | _, _ => false

end

mutual

theorem valueBEq_iff : ∀ (a b : Value), valueBEq a b = true ↔ a = b
  | .array as, .array bs => by
      simp only [valueBEq, Value.array.injEq]; exact valueListBEq_iff as bs
  | .array _, .str _ => by simp [valueBEq]
  | .array _, .int _ => by simp [valueBEq]
  | .str _, .array _ => by simp [valueBEq]
  | .str a, .str b => by simp [valueBEq]
  | .str _, .int _ => by simp [valueBEq]
  | .int _, .array _ => by simp [valueBEq]
  | .int _, .str _ => by simp [valueBEq]
  | .int a, .int b => by simp [valueBEq]

theorem valueListBEq_iff : ∀ (as bs : List Value), valueListBEq as bs = true ↔ as = bs
  | [], [] => by simp [valueListBEq]
  | [], _ :: _ => by simp [valueListBEq]
  | _ :: _, [] => by simp [valueListBEq]
  | a :: as, b :: bs => by
      simp only [valueListBEq, Bool.and_eq_true, List.cons.injEq]
      exact and_congr (valueBEq_iff a b) (valueListBEq_iff as bs)

end

instance : DecidableEq Value := fun a b => decidable_of_iff _ (valueBEq_iff a b)

instance {ε α : Type} [DecidableEq ε] [DecidableEq α] : DecidableEq (Except ε α) :=
  fun x y =>
    match x, y with
    | .ok a, .ok b =>
      if h : a = b then .isTrue (by rw [h])
      else .isFalse (by intro hh; cases hh; exact h rfl)
    | .error a, .error b =>
      if h : a = b then .isTrue (by rw [h])
      else .isFalse (by intro hh; cases hh; exact h rfl)
    | .ok _, .error _ => .isFalse (by intro hh; cases hh)
    | .error _, .ok _ => .isFalse (by intro hh; cases hh)

/-- `StringValue::as_str`. -/
def RStr.asStr : RStr → Option (List Char)
  | .simple s => some s
  | .bulk (some s) => some s
  | .bulk none => none
  | .null => none

/-- `Value::as_str`. -/
def Value.asStr : Value → Option (List Char)
  | .str s => s.asStr
  | _ => none

/-- `Value::bulk` constructor helper. -/
def Value.bulkV (s : List Char) : Value := .str (.bulk (some s))

/-- `Value::simple` constructor helper. -/
def Value.simpleV (s : List Char) : Value := .str (.simple s)

/-- `Value::null_bulk` constructor helper. -/
def Value.nullBulk : Value := .str (.bulk none)

/-! ## Encoder (src/resp/value.rs, `StringValue::encode` / `Value::encode`) -/

/-- `StringValue::encode` (without the trailing CRLF that `Value::encode`
appends after it). -/
def encodeRStr : RStr → List Char
  | .simple s => '+' :: s
  | .bulk (some s) => '$' :: natChars (byteLenL s) ++ ['\r', '\n'] ++ s
  | .bulk none => ['$', '-', '1']
  | .null => ['$', '-', '1']

mutual

/-- `Value::encode`: arrays emit a `*<len>` header then each element; strings
emit `StringValue::encode` plus CRLF; integers emit a bare `<i>` plus CRLF
(no sigil, as in the source). -/
def encodeValue : Value → List Char
  | .array vs => '*' :: natChars vs.length ++ ['\r', '\n'] ++ encodeList vs
  | .str s => encodeRStr s ++ ['\r', '\n']
  | .int i => intChars i ++ ['\r', '\n']

/-- Concatenated encodings of an array's elements, in order. -/
def encodeList : List Value → List Char
  | [] => []
  | v :: tl => encodeValue v ++ encodeList tl

end

/-! ## Lexer (src/resp/lex.rs) -/

/-- `Token`: the tokens of the RESP lexical layer. Integer lexemes are
`-?(0|[1-9][0-9]*)` with maximal munch; string lexemes are ASCII-alphabetic
runs. -/
inductive Token where
  | star
  | dollar
  | plus
  | int (v : Int)
  | str (s : List Char)
  deriving DecidableEq, Repr

/-- `RespError` (src/resp/mod.rs). -/
inductive RespError where
  | io
  | utf8Error
  | invalidToken
  | invalidLength (v : Int)
  deriving DecidableEq, Repr

/-- Parser-level outcome errors: a propagated `RespError`, or the `todo!()`
panic reached for integer tokens in `Parser::parse_one`. -/
inductive PErr where
  | resp (e : RespError)
  | unimplemented
  deriving DecidableEq, Repr

/-- Lex one token at a position where skips have been consumed. An unmatched
character is a lexing error (`InvalidToken` through `Parser::try_next`). -/
def lexAt : List Char → Except RespError (Option (Token × List Char))
  | [] => .ok none
  | c :: cs =>
    if c = '*' then .ok (some (.star, cs))
    else if c = '$' then .ok (some (.dollar, cs))
    else if c = '+' then .ok (some (.plus, cs))
    else if c = '-' then
      match cs with
      | [] => .error .invalidToken
      | d :: ds =>
        if d = '0' then .ok (some (.int 0, ds))
        else if isDigitCh d then
          .ok (some (.int (-(digitsVal (d :: ds.takeWhile isDigitCh) : Int)),
            ds.dropWhile isDigitCh))
        else .error .invalidToken
    else if c = '0' then .ok (some (.int 0, cs))
    else if isDigitCh c then
      .ok (some (.int (digitsVal (c :: cs.takeWhile isDigitCh)),
        cs.dropWhile isDigitCh))
    else if isAlphaCh c then
      .ok (some (.str (c :: cs.takeWhile isAlphaCh), cs.dropWhile isAlphaCh))
    else .error .invalidToken

/-- `Parser::try_next`: skip CR/LF runs, then lex one token; `none` at end of
input. -/
def tryNext (s : List Char) : Except RespError (Option (Token × List Char)) :=
  lexAt (s.dropWhile isSkip)

/-- `Token::as_int`. -/
def Token.asInt : Token → Option Int
  | .int v => some v
  | _ => none

/-- `TryInto<String> for Token`: integers render to their decimal text,
strings to themselves, sigils fail with `InvalidToken`. -/
def tokenIntoStr : Token → Except RespError (List Char)
  | .int v => .ok (intChars v)
  | .str s => .ok s
  | _ => .error .invalidToken

/-! ## Parser (src/resp/parser.rs)

The parser state is the remaining input; a successful parse returns the value
together with the remainder after the last token consumed (logos
`lexer.remainder()`), from which the framer computes the consumed byte count.
The mutual recursion of `parse_one` and `parse_array` is expressed with a
fuel parameter that decreases at each nesting level; the entry point
`parse` supplies fuel `length + 1`, which exceeds the nesting depth of any
input, so the fuel-exhaustion branch (which reports "insufficient input") is
never reached by it on inputs where the Rust parser terminates with a value. -/

/-- `Parser::parse_bulk`: read a length token; `-1` is the null bulk;
negative otherwise is `InvalidLength`; then read the payload token, convert
its lexeme to a string, and report a partial frame (`none`) when the lexeme
length differs from the declared length. -/
def parseBulk (s : List Char) : Except PErr (Option (Option (List Char) × List Char)) :=
  match tryNext s with
  | .error e => .error (.resp e)
  | .ok none => .ok none
  | .ok (some (t, s1)) =>
    match t.asInt with
    | none => .error (.resp .invalidToken)
    | some len =>
      if len = -1 then .ok (some (none, s1))
      else if len < 0 then .error (.resp (.invalidLength len))
      else
        match tryNext s1 with
        | .error e => .error (.resp e)
        | .ok none => .ok none
        | .ok (some (t2, s2)) =>
          match tokenIntoStr t2 with
          | .error e => .error (.resp e)
          | .ok payload =>
            if byteLenL payload = len.toNat then .ok (some (some payload, s2))
            else .ok none

/-- The child loop of `Parser::parse_array`, parametric in the child parser:
parse exactly `n` values in order, short-circuiting on the first error or
partial child (the lazy `collect` of the source). -/
def childLoop (p : List Char → Except PErr (Option (Value × List Char))) :
    Nat → List Char → Except PErr (Option (List Value × List Char))
  | 0, s => .ok (some ([], s))
  | n + 1, s =>
    match p s with
    | .error e => .error e
    | .ok none => .ok none
    | .ok (some (v, s1)) =>
      match childLoop p n s1 with
      | .error e => .error e
      | .ok none => .ok none
      | .ok (some (vs, s2)) => .ok (some (v :: vs, s2))

/-- `Parser::parse_one`: dispatch on the leading token. A `*` parses an
array (length token, then that many children), a `$` a bulk string, a `+` a
simple string; any other token reaches the source's `todo!()`, modelled as
`unimplemented`. -/
def parseOne : Nat → List Char → Except PErr (Option (Value × List Char))
  | 0, _ => .ok none
  | fuel + 1, s =>
    match tryNext s with
    | .error e => .error (.resp e)
    | .ok none => .ok none
    | .ok (some (t, s1)) =>
      match t with
      | .star =>
        match tryNext s1 with
        | .error e => .error (.resp e)
        | .ok none => .ok none
        | .ok (some (lt, s2)) =>
          match lt.asInt with
          | none => .error (.resp .invalidToken)
          | some len =>
            if len < 0 then .error (.resp (.invalidLength len))
            else
              match childLoop (fun t => parseOne fuel t) len.toNat s2 with
              | .error e => .error e
              | .ok none => .ok none
              | .ok (some (vs, s3)) => .ok (some (.array vs, s3))
      | .dollar =>
        match parseBulk s1 with
        | .error e => .error e
        | .ok none => .ok none
        | .ok (some (b, s2)) => .ok (some (.str (.bulk b), s2))
      | .plus =>
        match tryNext s1 with
        | .error e => .error (.resp e)
        | .ok none => .ok none
        | .ok (some (.str str, s2)) => .ok (some (.str (.simple str), s2))
        | .ok (some (_, _)) => .error (.resp .invalidToken)
      | _ => .error .unimplemented

/-- `Parser::parse` via `Value::parse`: parse one value and report the
remainder. -/
def parse (s : List Char) : Except PErr (Option (Value × List Char)) :=
  parseOne (s.length + 1) s

/-! ## The round-trip subset of values

Values whose encodings the lexer can re-tokenise: payloads are nonempty
ASCII-alphabetic runs (the only string lexeme class of src/resp/lex.rs),
bulk strings may also be null, and arrays nest freely. -/

/-- Nonempty ASCII-alphabetic text. -/
def goodStr (s : List Char) : Bool := !s.isEmpty && s.all isAlphaCh

mutual

/-- Membership in the round-trip subset. -/
def goodValue : Value → Bool
  | .array vs => goodList vs
  | .str (.simple s) => goodStr s
  | .str (.bulk (some s)) => goodStr s
  | .str (.bulk none) => true
  | .str .null => false
  | .int _ => false

/-- All elements in the round-trip subset. -/
def goodList : List Value → Bool
  | [] => true
  | v :: tl => goodValue v && goodList tl

end

mutual

/-- Node count of a value (used to bound the parser fuel). -/
def sizeV : Value → Nat
  | .array vs => 1 + sizeL vs
  | .str _ => 1
  | .int _ => 1

/-- Total node count of a list of values. -/
def sizeL : List Value → Nat
  | [] => 0
  | v :: tl => sizeV v + sizeL tl

end

/-! ## Command model (src/server/cmd.rs) -/

/-- `Time`: relative or absolute durations in seconds or milliseconds
(`u64` in the source, modelled as `Nat`; values are produced by `parseU64`
below, which enforces the 64-bit bound). -/
inductive RTime where
  | seconds (n : Nat)
  | millis (n : Nat)
  deriving DecidableEq, Repr

/-- `Expiry`: a relative time resolved against `now`, or an absolute unix
time. -/
inductive Expiry where
  | time (t : RTime)
  | unix (t : RTime)
  deriving DecidableEq, Repr

/-- `impl Into<Duration> for Time`, measured in milliseconds. -/
def RTime.millisOf : RTime → Nat
  | .seconds n => n * 1000
  | .millis n => n

/-- `i64::MAX`. -/
def i64Max : Int := 9223372036854775807

/-- The `as i64` cast of a `u64` value (two's-complement wraparound). -/
def u64AsI64 (n : Nat) : Int :=
  if n < 2 ^ 63 then (n : Int) else (n : Int) - 2 ^ 64

/-- Lower bound of `chrono::DateTime::from_timestamp`'s accepted range of
seconds (the documented representable range of chrono dates). -/
def minTimestampSecs : Int := -8334601228800

/-- Upper bound of `chrono::DateTime::from_timestamp`'s accepted range of
seconds. -/
def maxTimestampSecs : Int := 8210266876799

/-- `chrono::DateTime::from_timestamp secs 0`, returning the instant in
milliseconds since the epoch, `none` out of range. -/
def fromTimestampSecs (secs : Int) : Option Int :=
  if minTimestampSecs ≤ secs ∧ secs ≤ maxTimestampSecs then some (secs * 1000) else none

/-- `chrono::DateTime::from_timestamp_millis`. -/
def fromTimestampMillis (ms : Int) : Option Int :=
  if minTimestampSecs * 1000 ≤ ms ∧ ms ≤ maxTimestampSecs * 1000 + 999 then some ms
  else none

/-- How a call to `Expiry::into_utc` ends: with an instant, with the `None`
the caller observes (and the actor then panics on via `.expect`), or with
the panic raised inside the conversion itself by chrono's
`DateTime + TimeDelta` addition (`checked_add_signed(..).expect(..)`)
when the sum leaves chrono's representable range. -/
inductive UtcResult where
  | instant (t : Int)
  | noInstant
  | panicked
  deriving DecidableEq, Repr

/-- `Expiry::into_utc`: a relative time is converted by
`TimeDelta::from_std` — which fails (so the function yields `None`) when
the duration exceeds `i64::MAX` milliseconds — and then added to `now`;
that addition panics when the resulting instant leaves chrono's
representable range, which happens well inside the `from_std` bound. An
absolute time goes through `DateTime::from_timestamp`, which yields `None`
outside that same range. Instants are milliseconds since the epoch. -/
def Expiry.intoUtc (now : Int) : Expiry → UtcResult
  | .time t =>
    if (t.millisOf : Int) ≤ i64Max then
      if minTimestampSecs * 1000 ≤ now + t.millisOf ∧
          now + t.millisOf ≤ maxTimestampSecs * 1000 + 999 then
        .instant (now + t.millisOf)
      else .panicked
    else .noInstant
  | .unix t =>
    match t with
    | .seconds secs =>
      match fromTimestampSecs (u64AsI64 secs) with
      | some i => .instant i
      | none => .noInstant
    | .millis ms =>
      match fromTimestampMillis (u64AsI64 ms) with
      | some i => .instant i
      | none => .noInstant

/-- `SetError`. -/
inductive SetError where
  | missingKey
  | missingValue
  | missingExpiry
  deriving DecidableEq, Repr

/-- `GetError`. -/
inductive GetError where
  | missingKey
  deriving DecidableEq, Repr

/-- `InfoError`. -/
inductive InfoError where
  | unknownSection (s : List Char)
  deriving DecidableEq, Repr

/-- `CommandError`: the closed taxonomy of command-parse failures;
`invalidArgument` carries the offending value. -/
inductive CommandError where
  | set (e : SetError)
  | get (e : GetError)
  | info (e : InfoError)
  | invalidArgument (v : Value)
  | invalidCommand
  | unknownCommand (s : List Char)
  deriving DecidableEq, Repr

/-- `Command`. -/
inductive Command where
  | ping (msg : Option (List Char))
  | echo (msg : List Char)
  | set (key value : List Char) (expiry : Option Expiry)
  | get (key : List Char)
  | info (sect : Option (List Char))
  deriving DecidableEq, Repr

/-- `HandshakeError` (src/server/role.rs). -/
inductive HandshakeError where
  | io
  | resp (e : RespError)
  | closed
  | invalidResponse (v : Value)
  deriving DecidableEq, Repr

/-- `MemoraError` (src/server/error.rs); `utf8Error` is the variant the
framer constructs for a buffer that is not valid UTF-8, and `standard`
carries the boxed handshake error that `Replica::start` wraps. -/
inductive MemoraError where
  | io
  | utf8Error
  | resp (e : RespError)
  | encode
  | command (e : CommandError)
  | standard (e : HandshakeError)
  deriving DecidableEq, Repr

/-- Rust `str::parse::<u64>` on the digits after an optional sign has been
stripped: nonempty, all decimal digits, value within 64 bits. -/
def parseU64Digits (ds : List Char) : Option Nat :=
  if ds.isEmpty then none
  else if ds.all isDigitCh then
    if digitsVal ds < 2 ^ 64 then some (digitsVal ds) else none
  else none

/-- Rust `str::parse::<u64>`: an optional leading `+` is accepted, a
leading `-` (or any other non-digit) is not. -/
def parseU64 : List Char → Option Nat
  | [] => none
  | c :: cs => if c = '+' then parseU64Digits cs else parseU64Digits (c :: cs)

/-- `Command::try_from(Value)`: the value must be an array whose first
element is a string; the (ASCII case-insensitive) command word selects the
variant and the remaining elements are consumed positionally. -/
def commandTryFrom : Value → Except CommandError Command
  | .array values =>
    match values with
    | [] => .error .invalidCommand
    | v0 :: args =>
      match v0 with
      | .str cmd =>
        match cmd.asStr with
        | none => .error .invalidCommand
        | some cmdStr =>
          if eqIgnoreCase cmdStr ['p', 'i', 'n', 'g'] then
            match args with
            | [] => .ok (.ping none)
            | a :: _ =>
              match a with
              | .str m => .ok (.ping (some (m.asStr.getD [])))
              | _ => .error (.invalidArgument a)
          else if eqIgnoreCase cmdStr ['e', 'c', 'h', 'o'] then
            match args with
            | [] => .error .invalidCommand
            | a :: _ =>
              match a with
              | .str m => .ok (.echo (m.asStr.getD []))
              | _ => .error (.invalidArgument a)
          else if eqIgnoreCase cmdStr ['s', 'e', 't'] then
            match args with
            | [] => .error (.set .missingKey)
            | kv :: rest1 =>
              match kv.asStr with
              | none => .error (.invalidArgument kv)
              | some key =>
                match rest1 with
                | [] => .error (.set .missingValue)
                | vv :: rest2 =>
                  match vv.asStr with
                  | none => .error (.invalidArgument vv)
                  | some value =>
                    match rest2 with
                    | [] => .ok (.set key value none)
                    | arg :: rest3 =>
                      match arg.asStr with
                      | none => .error (.invalidArgument arg)
                      | some expiryKey =>
                        match rest3 with
                        | [] => .error (.set .missingExpiry)
                        | ev :: _ =>
                          match ev.asStr with
                          | none => .error (.invalidArgument ev)
                          | some expiryStr =>
                            match parseU64 expiryStr with
                            | none => .error (.invalidArgument ev)
                            | some n =>
                              if eqIgnoreCase expiryKey ['e', 'x'] then
                                .ok (.set key value (some (.time (.seconds n))))
                              else if eqIgnoreCase expiryKey ['p', 'x'] then
                                .ok (.set key value (some (.time (.millis n))))
                              else if eqIgnoreCase expiryKey ['e', 'x', 'a', 't'] then
                                .ok (.set key value (some (.unix (.seconds n))))
                              else if eqIgnoreCase expiryKey ['p', 'x', 'a', 't'] then
                                .ok (.set key value (some (.unix (.millis n))))
                              else .error (.invalidArgument arg)
          else if eqIgnoreCase cmdStr ['g', 'e', 't'] then
            match args with
            | [] => .error (.get .missingKey)
            | kv :: _ =>
              match kv.asStr with
              | none => .error (.invalidArgument kv)
              | some key => .ok (.get key)
          else if eqIgnoreCase cmdStr ['i', 'n', 'f', 'o'] then
            match args with
            | [] => .ok (.info none)
            | sv :: _ =>
              match sv.asStr with
              | none => .error (.invalidArgument sv)
              | some sec => .ok (.info (some sec))
          else .error (.unknownCommand cmdStr)
      | _ => .error .invalidCommand
  | _ => .error .invalidCommand

/-! ## The string store and the actor (src/server/server.rs) -/

/-- `StringEntry`: value plus optional absolute expiry (ms since epoch). -/
structure StringEntry where
  value : List Char
  expiry : Option Int
  deriving DecidableEq, Repr

/-- `StringStore`: the actor's key/value map (`HashMap` modelled as an
association list with unique keys maintained by `storeSet`). -/
abbrev StringStore := List (List Char × StringEntry)

/-- Map lookup. -/
def storeLookup : StringStore → List Char → Option StringEntry
  | [], _ => none
  | (k, e) :: tl, key => if k = key then some e else storeLookup tl key

/-- `StringStore::store`: an occupied entry has both its value and its
expiry overwritten; a vacant key is inserted. -/
def storeSet : StringStore → List Char → List Char → Option Int → StringStore
  | [], key, value, expiry => [(key, ⟨value, expiry⟩)]
  | (k, e) :: tl, key, value, expiry =>
    if k = key then (k, ⟨value, expiry⟩) :: tl
    else (k, e) :: storeSet tl key value expiry

/-- `StringStore::try_get`: absent keys yield `none`; an entry whose expiry
is `≤ now` is treated as absent (and not evicted); otherwise the value. -/
def tryGet (st : StringStore) (key : List Char) (now : Int) : Option (List Char) :=
  match storeLookup st key with
  | none => none
  | some e =>
    let expired := match e.expiry with
      | some exp => decide (exp ≤ now)
      | none => false
    if expired then none else some e.value

/-- `Vec::join("\r\n")` on the role's info lines. -/
def joinCRLF : List (List Char) → List Char
  | [] => []
  | [s] => s
  | s :: tl => s ++ ('\r' :: '\n' :: joinCRLF tl)

/-- Result of executing one command in the actor: a reply, a returned
error (logged by the main loop, reply suppressed), or a panic
(`.expect` / `todo!()` in the source). -/
inductive Outcome (α : Type) where
  | ok (a : α)
  | err (e : MemoraError)
  | panicked
  deriving DecidableEq, Repr

/-- `Memora::handle_command`. The role is generic in the source; its
`info()` lines are passed as `roleInfo`. `now` is the wall clock read
(`Utc::now()`) made explicit. `INFO` substitutes `"default"` for an absent
section and replies only to `"replication"` (ASCII case-insensitive);
`SET` resolves the expiry with `into_utc().expect(..)` — the actor panics
both when the conversion yields no instant (the `.expect`) and when the
conversion itself panics in chrono's datetime addition — then overwrites
the entry and replies `+OK`; `GET` reads through `try_get`; `PING`/`ECHO`
reach the actor's `todo!()`. -/
def handleCommand (roleInfo : List (List Char)) (now : Int) (st : StringStore) :
    Command → Outcome Value × StringStore
  | .info sect =>
    let sec := sect.getD ['d', 'e', 'f', 'a', 'u', 'l', 't']
    if eqIgnoreCase sec ['r', 'e', 'p', 'l', 'i', 'c', 'a', 't', 'i', 'o', 'n'] then
      (.ok (Value.bulkV (joinCRLF roleInfo)), st)
    else (.err (.command (.info (.unknownSection sec))), st)
  | .set key value expiry =>
    match expiry with
    | some e =>
      match e.intoUtc now with
      | .instant t => (.ok (Value.simpleV ['O', 'K']), storeSet st key value (some t))
      | .noInstant => (.panicked, st)
      | .panicked => (.panicked, st)
    | none => (.ok (Value.simpleV ['O', 'K']), storeSet st key value none)
  | .get key =>
    (.ok (match tryGet st key now with
      | some value => Value.bulkV value
      | none => Value.nullBulk), st)
  | _ => (.panicked, st)

/-! ## Session step (src/server/session.rs) -/

/-- What one loop iteration of `Session::run` produced: the values sent to
the client and whether the session terminated. -/
structure StepResult where
  sent : List Value
  terminated : Bool
  deriving DecidableEq, Repr

/-- One iteration of `Session::run` after a value has been decoded: convert
it to a command; on conversion failure the error is only logged — nothing
is sent and the loop returns to reading; `PING`/`ECHO` are answered
locally; any other command is forwarded to the actor, whose reply (the
function `reply`) is sent back. -/
def sessionStep (reply : Command → Value) (v : Value) : StepResult :=
  match commandTryFrom v with
  | .error _ => ⟨[], false⟩
  | .ok (.ping none) => ⟨[Value.simpleV ['P', 'O', 'N', 'G']], false⟩
  | .ok (.ping (some m)) =>
    ⟨[Value.array [Value.bulkV ['P', 'O', 'N', 'G'], Value.bulkV m]], false⟩
  | .ok (.echo m) => ⟨[Value.bulkV m], false⟩
  | .ok c => ⟨[reply c], false⟩

/-! ## Replica handshake (src/server/role.rs)

The framed connection to the master is modelled by its inbox: the list of
values (or decode errors) the connection will yield; an exhausted inbox is
a closed connection. -/

/-- `replconf`: send a `REPLCONF` message (sends are infallible in this
model) and require the next inbound value to have a string form equal to
`"OK"` ignoring ASCII case; a closed connection is `Closed`, a decode error
propagates as `Resp`, anything else is `InvalidResponse`. -/
def replconf (inbox : List (Except RespError Value)) :
    Except HandshakeError (List (Except RespError Value)) :=
  match inbox with
  | [] => .error .closed
  | .error e :: _ => .error (.resp e)
  | .ok v :: rest =>
    match v.asStr with
    | none => .error (.invalidResponse v)
    | some s =>
      if eqIgnoreCase s ['o', 'k'] then .ok rest else .error (.invalidResponse v)

/-- `handshake`: send `PING` and read any single value, then run the two
`REPLCONF` steps. -/
def handshake (inbox : List (Except RespError Value)) :
    Except HandshakeError (List (Except RespError Value)) :=
  match inbox with
  | [] => .error .closed
  | .error e :: _ => .error (.resp e)
  | .ok _ :: rest =>
    match replconf rest with
    | .error e => .error e
    | .ok rest2 => replconf rest2

/-- `Replica::start`: run the handshake and wrap any failure in
`MemoraError::Standard`, aborting startup. -/
def replicaStart (inbox : List (Except RespError Value)) : Except MemoraError Unit :=
  match handshake inbox with
  | .error e => .error (.standard e)
  | .ok _ => .ok ()

/-! ## Framed decoding (src/server/framer.rs) -/

/-- A UTF-8 continuation byte. -/
def utf8Cont (b : Nat) : Bool := 128 ≤ b && b < 192

/-- UTF-8 validation/decoding of a byte buffer, mirroring Rust
`str::from_utf8` (which the framer runs over the whole buffer before
parsing): `none` exactly when the buffer is not valid UTF-8. -/
def utf8Decode : List Nat → Option (List Char)
  | [] => some []
  | b :: bs =>
    if b < 128 then (utf8Decode bs).map (fun cs => Char.ofNat b :: cs)
    else if b < 194 then none
    else if b < 224 then
      match bs with
      | b1 :: bs2 =>
        if utf8Cont b1 then
          (utf8Decode bs2).map (fun cs => Char.ofNat ((b - 192) * 64 + (b1 - 128)) :: cs)
        else none
      | [] => none
    else if b < 240 then
      match bs with
      | b1 :: b2 :: bs3 =>
        if (if b = 224 then 160 else 128) ≤ b1 ∧ b1 ≤ (if b = 237 then 159 else 191) ∧
            utf8Cont b2 = true then
          (utf8Decode bs3).map (fun cs =>
            Char.ofNat ((b - 224) * 4096 + (b1 - 128) * 64 + (b2 - 128)) :: cs)
        else none
      | _ => none
    else if b < 245 then
      match bs with
      | b1 :: b2 :: b3 :: bs4 =>
        if (if b = 240 then 144 else 128) ≤ b1 ∧ b1 ≤ (if b = 244 then 143 else 191) ∧
            utf8Cont b2 = true ∧ utf8Cont b3 = true then
          (utf8Decode bs4).map (fun cs =>
            Char.ofNat ((b - 240) * 262144 + (b1 - 128) * 4096 + (b2 - 128) * 64 +
              (b3 - 128)) :: cs)
        else none
      | _ => none
    else none

/-- Decoder output of `RespFramer::decode`: a complete value, a request for
more bytes, a decode failure (fatal to the session), or the propagated
parser panic. -/
inductive FramerOut where
  | value (v : Value)
  | needMore
  | failed (e : MemoraError)
  | panicked
  deriving DecidableEq, Repr

/-- `RespFramer::decode`: the whole buffered byte sequence is validated as
UTF-8 first — any invalid sequence anywhere is a `Utf8Error`, even when a
complete value sits at the front; then one value is parsed, and the buffer
is advanced by the consumed byte count (`len - remainder.len()`); on
partial input nothing is consumed. -/
def framerDecode (buf : List Nat) : FramerOut × List Nat :=
  match utf8Decode buf with
  | none => (.failed .utf8Error, buf)
  | some s =>
    match parse s with
    | .ok (some (v, rem)) => (.value v, buf.drop (byteLenL s - byteLenL rem))
    | .ok none => (.needMore, buf)
    | .error (.resp e) => (.failed (.resp e), buf)
    | .error .unimplemented => (.panicked, buf)

/-- The same decode step at the character level (after UTF-8 validation),
used to state buffer-consumption properties: on a complete value the buffer
becomes the parser's remainder, on partial input it is unchanged. -/
def framerDecodeChars (s : List Char) : Except PErr (Option Value) × List Char :=
  match parse s with
  | .ok (some (v, rem)) => (.ok (some v), rem)
  | .ok none => (.ok none, s)
  | .error e => (.error e, s)

/-! ## Lemmas about the lexical layer -/

/-- The head of the list, if any, does not satisfy `p`. -/
def headNot (p : Char → Bool) : List Char → Prop
  | [] => True
  | c :: _ => p c = false

theorem headNot_crlf_digit (s : List Char) : headNot isDigitCh ('\r' :: s) := rfl
theorem headNot_crlf_alpha (s : List Char) : headNot isAlphaCh ('\r' :: s) := rfl
theorem headNot_nil (p : Char → Bool) : headNot p [] := trivial

theorem takeWhile_headNot (p : Char → Bool) :
    ∀ (xs r : List Char), (∀ x ∈ xs, p x = true) → headNot p r →
      (xs ++ r).takeWhile p = xs ∧ (xs ++ r).dropWhile p = r := by
  intro xs
  induction xs with
  | nil =>
    intro r _ hr
    cases r with
    | nil => exact ⟨rfl, rfl⟩
    | cons c cs =>
      simp only [headNot] at hr
      simp [List.takeWhile_cons, List.dropWhile_cons, hr]
  | cons x xs ih =>
    intro r hxs hr
    have hx : p x = true := hxs x (by simp)
    have := ih r (fun a ha => hxs a (by simp [ha])) hr
    simp [List.takeWhile_cons, List.dropWhile_cons, hx, this.1, this.2]

theorem isDigitCh_not_special {c : Char} (hd : isDigitCh c = true) :
    c ≠ '*' ∧ c ≠ '$' ∧ c ≠ '+' ∧ c ≠ '-' ∧ isSkip c = false ∧ isAlphaCh c = false := by
  refine ⟨?_, ?_, ?_, ?_, ?_, ?_⟩
  · rintro rfl; exact absurd hd (by decide)
  · rintro rfl; exact absurd hd (by decide)
  · rintro rfl; exact absurd hd (by decide)
  · rintro rfl; exact absurd hd (by decide)
  · simp only [isDigitCh, Bool.and_eq_true, decide_eq_true_eq] at hd
    simp only [isSkip, Bool.or_eq_false_iff, decide_eq_false_iff_not]; omega
  · simp only [isDigitCh, Bool.and_eq_true, decide_eq_true_eq] at hd
    simp only [isAlphaCh, Bool.or_eq_false_iff, Bool.and_eq_false_iff,
      decide_eq_false_iff_not]; omega

theorem isAlphaCh_not_special {c : Char} (ha : isAlphaCh c = true) :
    c ≠ '*' ∧ c ≠ '$' ∧ c ≠ '+' ∧ c ≠ '-' ∧ c ≠ '0' ∧ isSkip c = false ∧
      isDigitCh c = false := by
  refine ⟨?_, ?_, ?_, ?_, ?_, ?_, ?_⟩
  · rintro rfl; exact absurd ha (by decide)
  · rintro rfl; exact absurd ha (by decide)
  · rintro rfl; exact absurd ha (by decide)
  · rintro rfl; exact absurd ha (by decide)
  · rintro rfl; exact absurd ha (by decide)
  · simp only [isAlphaCh, Bool.or_eq_true, Bool.and_eq_true, decide_eq_true_eq] at ha
    simp only [isSkip, Bool.or_eq_false_iff, decide_eq_false_iff_not]; omega
  · simp only [isAlphaCh, Bool.or_eq_true, Bool.and_eq_true, decide_eq_true_eq] at ha
    simp only [isDigitCh, Bool.and_eq_false_iff, decide_eq_false_iff_not]; omega

theorem tryNext_nil : tryNext [] = .ok none := rfl

theorem tryNext_cr (s : List Char) : tryNext ('\r' :: s) = tryNext s := by
  simp [tryNext, List.dropWhile_cons, isSkip]

theorem tryNext_lf (s : List Char) : tryNext ('\n' :: s) = tryNext s := by
  simp [tryNext, List.dropWhile_cons, isSkip]

theorem tryNext_star (s : List Char) : tryNext ('*' :: s) = .ok (some (.star, s)) := by
  simp [tryNext, List.dropWhile_cons, isSkip, lexAt]

theorem tryNext_dollar (s : List Char) : tryNext ('$' :: s) = .ok (some (.dollar, s)) := by
  simp [tryNext, List.dropWhile_cons, isSkip, lexAt]

theorem tryNext_plus (s : List Char) : tryNext ('+' :: s) = .ok (some (.plus, s)) := by
  simp [tryNext, List.dropWhile_cons, isSkip, lexAt]

theorem tryNext_zero (s : List Char) : tryNext ('0' :: s) = .ok (some (.int 0, s)) := by
  simp [tryNext, List.dropWhile_cons, isSkip, lexAt]

theorem tryNext_digit {c : Char} (h0 : c ≠ '0') (hd : isDigitCh c = true)
    (ds r : List Char) (hds : ∀ x ∈ ds, isDigitCh x = true) (hr : headNot isDigitCh r) :
    tryNext (c :: (ds ++ r)) = .ok (some (.int (digitsVal (c :: ds)), r)) := by
  obtain ⟨h1, h2, h3, h4, h5, _⟩ := isDigitCh_not_special hd
  have hw := takeWhile_headNot isDigitCh ds r hds hr
  simp [tryNext, List.dropWhile_cons, h5, lexAt, h1, h2, h3, h4, h0, hd, hw.1, hw.2]

theorem tryNext_alpha {c : Char} (hc : isAlphaCh c = true)
    (cs r : List Char) (hcs : ∀ x ∈ cs, isAlphaCh x = true) (hr : headNot isAlphaCh r) :
    tryNext (c :: (cs ++ r)) = .ok (some (.str (c :: cs), r)) := by
  obtain ⟨h1, h2, h3, h4, h5, h6, h7⟩ := isAlphaCh_not_special hc
  have hw := takeWhile_headNot isAlphaCh cs r hcs hr
  simp [tryNext, List.dropWhile_cons, h6, lexAt, h1, h2, h3, h4, h5, h7, hc, hw.1, hw.2]

theorem tryNext_neg_one (r : List Char) (hr : headNot isDigitCh r) :
    tryNext ('-' :: '1' :: r) = .ok (some (.int (-1), r)) := by
  have hw := takeWhile_headNot isDigitCh [] r (by simp) hr
  simp only [List.nil_append] at hw
  simp [tryNext, List.dropWhile_cons, isSkip, lexAt, hw.1, hw.2, digitsVal, chVal]
  decide

/-! ## Lemmas about the decimal printer -/

theorem isDigitCh_digitCh (d : Nat) : isDigitCh (digitCh d) = true := by
  unfold digitCh; split <;> decide

theorem chVal_digitCh {d : Nat} (h : d < 10) : chVal (digitCh d) = d := by
  interval_cases d <;> decide

theorem digitCh_ne_zero {d : Nat} (h0 : 0 < d) (h10 : d < 10) : digitCh d ≠ '0' := by
  interval_cases d <;> decide

theorem natCharsAux_digits : ∀ (fuel n : Nat), ∀ c ∈ natCharsAux fuel n, isDigitCh c = true := by
  intro fuel
  induction fuel with
  | zero => intro n c hc; simp [natCharsAux] at hc
  | succ fuel ih =>
    intro n c hc
    by_cases hn : n = 0
    · simp [natCharsAux, hn] at hc
    · simp only [natCharsAux, if_neg hn, List.mem_append, List.mem_singleton] at hc
      rcases hc with hc | hc
      · exact ih _ c hc
      · subst hc; exact isDigitCh_digitCh _

theorem digitsVal_append (xs : List Char) (c : Char) :
    digitsVal (xs ++ [c]) = 10 * digitsVal xs + chVal c := by
  simp [digitsVal, List.foldl_append]

theorem natCharsAux_val : ∀ (fuel n : Nat), n ≤ fuel → digitsVal (natCharsAux fuel n) = n := by
  intro fuel
  induction fuel with
  | zero => intro n h; interval_cases n; simp [natCharsAux, digitsVal]
  | succ fuel ih =>
    intro n h
    by_cases hn : n = 0
    · simp [natCharsAux, hn, digitsVal]
    · have hdiv : n / 10 ≤ fuel := by
        have := Nat.div_lt_self (Nat.pos_of_ne_zero hn) (by omega : 1 < 10)
        omega
      simp only [natCharsAux, if_neg hn]
      rw [digitsVal_append, ih _ hdiv, chVal_digitCh (Nat.mod_lt n (by omega))]
      omega

theorem natCharsAux_ne_nil : ∀ (fuel n : Nat), 0 < n → n ≤ fuel → natCharsAux fuel n ≠ [] := by
  intro fuel n h0 hle
  cases fuel with
  | zero => omega
  | succ fuel =>
    simp only [natCharsAux, if_neg (by omega : ¬ n = 0)]
    simp

theorem natCharsAux_head : ∀ (fuel n : Nat), 0 < n → n ≤ fuel →
    ∀ c t, natCharsAux fuel n = c :: t → c ≠ '0' := by
  intro fuel
  induction fuel with
  | zero => intro n h0 hle; omega
  | succ fuel ih =>
    intro n h0 hle c t heq
    simp only [natCharsAux, if_neg (by omega : ¬ n = 0)] at heq
    by_cases hdiv : n / 10 = 0
    · have hmod : n % 10 = n := by omega
      have : natCharsAux fuel (n / 10) = [] := by
        rw [hdiv]; cases fuel <;> simp [natCharsAux]
      rw [this, List.nil_append] at heq
      cases heq
      exact digitCh_ne_zero (by omega) (by omega)
    · have hdle : n / 10 ≤ fuel := by
        have := Nat.div_lt_self h0 (by omega : 1 < 10)
        omega
      have hne := natCharsAux_ne_nil fuel (n / 10) (Nat.pos_of_ne_zero hdiv) hdle
      cases haux : natCharsAux fuel (n / 10) with
      | nil => exact absurd haux hne
      | cons c' t' =>
        rw [haux, List.cons_append] at heq
        cases heq
        exact ih _ (Nat.pos_of_ne_zero hdiv) hdle _ _ haux

theorem natChars_digits (n : Nat) : ∀ c ∈ natChars n, isDigitCh c = true := by
  by_cases hn : n = 0
  · subst hn; intro c hc
    have h0 : natChars 0 = ['0'] := rfl
    rw [h0, List.mem_singleton] at hc
    subst hc; decide
  · rw [natChars, if_neg hn]; exact natCharsAux_digits _ n

theorem natChars_val (n : Nat) : digitsVal (natChars n) = n := by
  by_cases hn : n = 0
  · subst hn; decide
  · rw [natChars, if_neg hn]; exact natCharsAux_val _ n (by omega)

theorem natChars_ne_nil (n : Nat) : natChars n ≠ [] := by
  by_cases hn : n = 0
  · subst hn; decide
  · rw [natChars, if_neg hn]
    exact natCharsAux_ne_nil _ n (Nat.pos_of_ne_zero hn) (by omega)

/-- Lexing a printed natural number followed by a non-digit boundary yields
exactly the integer token with that value. -/
theorem tryNext_natChars (n : Nat) (r : List Char) (hr : headNot isDigitCh r) :
    tryNext (natChars n ++ r) = .ok (some (.int n, r)) := by
  by_cases hn : n = 0
  · subst hn; simp only [natChars, if_pos rfl, List.cons_append, List.nil_append]
    exact tryNext_zero r
  · cases hchars : natChars n with
    | nil => exact absurd hchars (natChars_ne_nil n)
    | cons c t =>
      have hc0 : c ≠ '0' := by
        have := natCharsAux_head (n + 1) n (Nat.pos_of_ne_zero hn) (by omega) c t
        unfold natChars at hchars
        rw [if_neg hn] at hchars
        exact this hchars
      have hdigs : ∀ x ∈ natChars n, isDigitCh x = true := natChars_digits n
      rw [hchars] at hdigs
      have hc : isDigitCh c = true := hdigs c (by simp)
      have ht : ∀ x ∈ t, isDigitCh x = true := fun x hx => hdigs x (by simp [hx])
      have key := tryNext_digit hc0 hc t r ht hr
      have hval : digitsVal (c :: t) = n := by rw [← hchars, natChars_val]
      simp only [List.cons_append]
      rw [key, hval]

/-! ## Lemmas about the parser on basic inputs -/

theorem parseOne_nil (fuel : Nat) : parseOne fuel [] = .ok none := by
  cases fuel <;> simp [parseOne, tryNext_nil]

theorem parseOne_cr (fuel : Nat) : parseOne fuel ['\r'] = .ok none := by
  cases fuel with
  | zero => rfl
  | succ fuel => simp [parseOne, tryNext_cr, tryNext_nil]

theorem parseOne_crlf (fuel : Nat) (s : List Char) :
    parseOne fuel ('\r' :: '\n' :: s) = parseOne fuel s := by
  cases fuel with
  | zero => rfl
  | succ fuel => simp only [parseOne, tryNext_cr, tryNext_lf]

/-! ## Size and goodness facts -/

theorem sizeV_pos : ∀ (v : Value), 0 < sizeV v := by
  intro v; cases v <;> simp [sizeV]

theorem sizeV_mem_le : ∀ (vs : List Value) (v : Value), v ∈ vs → sizeV v ≤ sizeL vs := by
  intro vs
  induction vs with
  | nil => intro v hv; simp at hv
  | cons w tl ih =>
    intro v hv
    rcases List.mem_cons.mp hv with h | h
    · subst h; simp [sizeL]
    · have := ih v h; simp [sizeL]; omega

theorem goodList_mem : ∀ (vs : List Value), goodList vs = true →
    ∀ v ∈ vs, goodValue v = true := by
  intro vs
  induction vs with
  | nil => intro _ v hv; simp at hv
  | cons w tl ih =>
    intro hg v hv
    simp only [goodList, Bool.and_eq_true] at hg
    rcases List.mem_cons.mp hv with h | h
    · subst h; exact hg.1
    · exact ih hg.2 v h

theorem goodStr_parts {s : List Char} (h : goodStr s = true) :
    ∃ c cs, s = c :: cs ∧ isAlphaCh c = true ∧ ∀ x ∈ cs, isAlphaCh x = true := by
  cases s with
  | nil => simp [goodStr] at h
  | cons c cs =>
    simp only [goodStr, Bool.and_eq_true, List.all_eq_true, List.isEmpty_cons,
      Bool.not_false] at h
    exact ⟨c, cs, rfl, h.2 c (by simp), fun x hx => h.2 x (by simp [hx])⟩

theorem byteLen_alpha {c : Char} (h : isAlphaCh c = true) : byteLen c = 1 := by
  simp only [isAlphaCh, Bool.or_eq_true, Bool.and_eq_true, decide_eq_true_eq] at h
  unfold byteLen
  rw [if_pos (by omega)]

theorem byteLenL_alpha : ∀ (s : List Char), (∀ x ∈ s, isAlphaCh x = true) →
    byteLenL s = s.length := by
  intro s
  induction s with
  | nil => intro _; rfl
  | cons c cs ih =>
    intro h
    have hc := byteLen_alpha (h c (by simp))
    have := ih (fun x hx => h x (by simp [hx]))
    simp [byteLenL, List.map_cons, List.sum_cons, hc] at *
    omega

/-! ## Round trip: parsing an encoding of a good value

`rtAux` is the central induction: for every good value `v`, every fuel and
every continuation `rest`, parsing `encodeValue v ++ rest` either succeeds
with exactly `v` and leaves the trailing CRLF of the encoding (plus `rest`)
unconsumed — the remainder semantics of logos — or reports a partial frame
because the fuel is smaller than the value's node count (which the entry
point `parse` always exceeds). -/

theorem childLoop_encodeList (vs : List Value)
    (IH : ∀ v ∈ vs, ∀ (fuel : Nat) (rest : List Char),
      parseOne fuel (encodeValue v ++ rest) = .ok (some (v, '\r' :: '\n' :: rest)) ∨
      (parseOne fuel (encodeValue v ++ rest) = .ok none ∧ fuel < sizeV v)) :
    ∀ (fuel : Nat) (rest : List Char),
      childLoop (fun t => parseOne fuel t) vs.length
          ('\r' :: '\n' :: (encodeList vs ++ rest)) =
        .ok (some (vs, '\r' :: '\n' :: rest)) ∨
      (childLoop (fun t => parseOne fuel t) vs.length
          ('\r' :: '\n' :: (encodeList vs ++ rest)) = .ok none ∧ fuel < sizeL vs) := by
  induction vs with
  | nil =>
    intro fuel rest
    left
    simp [childLoop, encodeList]
  | cons v tl ih =>
    intro fuel rest
    have hv := IH v (by simp) fuel (encodeList tl ++ rest)
    have henc : encodeList (v :: tl) ++ rest = encodeValue v ++ (encodeList tl ++ rest) := by
      simp [encodeList, List.append_assoc]
    rcases hv with hv | ⟨hv, hlt⟩
    · have htl := ih (fun w hw => IH w (by simp [hw])) fuel rest
      rcases htl with htl | ⟨htl, hlt⟩
      · left
        simp only [List.length_cons, childLoop, parseOne_crlf, henc, hv, htl]
      · right
        constructor
        · simp only [List.length_cons, childLoop, parseOne_crlf, henc, hv, htl]
        · simp [sizeL]; omega
    · right
      constructor
      · simp only [List.length_cons, childLoop, parseOne_crlf, henc, hv]
      · simp [sizeL]; omega

theorem rtAux : ∀ (N : Nat) (v : Value), sizeV v ≤ N → goodValue v = true →
    ∀ (fuel : Nat) (rest : List Char),
      parseOne fuel (encodeValue v ++ rest) = .ok (some (v, '\r' :: '\n' :: rest)) ∨
      (parseOne fuel (encodeValue v ++ rest) = .ok none ∧ fuel < sizeV v) := by
  intro N
  induction N with
  | zero => intro v hs; have := sizeV_pos v; omega
  | succ N ihN =>
    intro v hs hg fuel rest
    cases fuel with
    | zero =>
      right
      exact ⟨parseOne_nil 0 ▸ rfl, sizeV_pos v⟩
    | succ fuel =>
      cases v with
      | int i => simp [goodValue] at hg
      | str sv =>
        cases sv with
        | null => simp [goodValue] at hg
        | simple s =>
          left
          have hgs : goodStr s = true := by simpa [goodValue] using hg
          obtain ⟨c, cs, rfl, hc, hcs⟩ := goodStr_parts hgs
          have e1 : encodeValue (.str (.simple (c :: cs))) ++ rest =
              '+' :: c :: (cs ++ ('\r' :: '\n' :: rest)) := by
            simp [encodeValue, encodeRStr]
          rw [e1]
          simp only [parseOne, tryNext_plus,
            tryNext_alpha hc cs ('\r' :: '\n' :: rest) hcs (headNot_crlf_alpha _)]
        | bulk ob =>
          cases ob with
          | none =>
            left
            have e1 : encodeValue (.str (.bulk none)) ++ rest =
                '$' :: '-' :: '1' :: '\r' :: '\n' :: rest := by
              simp [encodeValue, encodeRStr]
            rw [e1]
            simp only [parseOne, tryNext_dollar, parseBulk,
              tryNext_neg_one ('\r' :: '\n' :: rest) (headNot_crlf_digit _),
              Token.asInt]
            simp
          | some s =>
            left
            have hgs : goodStr s = true := by simpa [goodValue] using hg
            obtain ⟨c, cs, rfl, hc, hcs⟩ := goodStr_parts hgs
            have hall : ∀ x ∈ c :: cs, isAlphaCh x = true := by
              intro x hx
              rcases List.mem_cons.mp hx with h | h
              · subst h; exact hc
              · exact hcs x h
            have e1 : encodeValue (.str (.bulk (some (c :: cs)))) ++ rest =
                '$' :: (natChars (byteLenL (c :: cs)) ++
                  ('\r' :: '\n' :: (c :: (cs ++ ('\r' :: '\n' :: rest))))) := by
              simp [encodeValue, encodeRStr]
            rw [e1]
            have hlen : tryNext (natChars (byteLenL (c :: cs)) ++
                ('\r' :: '\n' :: (c :: (cs ++ ('\r' :: '\n' :: rest))))) =
                .ok (some (.int (byteLenL (c :: cs)), _)) :=
              tryNext_natChars _ _ (headNot_crlf_digit _)
            simp only [parseOne, tryNext_dollar, parseBulk, hlen, Token.asInt,
              tryNext_cr, tryNext_lf,
              tryNext_alpha hc cs ('\r' :: '\n' :: rest) hcs (headNot_crlf_alpha _),
              tokenIntoStr]
            have hne1 : ¬ ((byteLenL (c :: cs) : Int) = -1) := by omega
            have hnneg : ¬ ((byteLenL (c :: cs) : Int) < 0) := by omega
            simp [hne1, hnneg, Int.toNat_ofNat]
      | array vs =>
        have hgl : goodList vs = true := by simpa [goodValue] using hg
        have hsz : sizeL vs ≤ N := by simp [sizeV] at hs; omega
        have IH : ∀ w ∈ vs, ∀ (f : Nat) (r : List Char),
            parseOne f (encodeValue w ++ r) = .ok (some (w, '\r' :: '\n' :: r)) ∨
            (parseOne f (encodeValue w ++ r) = .ok none ∧ f < sizeV w) := by
          intro w hw f r
          exact ihN w (le_trans (sizeV_mem_le vs w hw) hsz)
            (goodList_mem vs hgl w hw) f r
        have hch := childLoop_encodeList vs IH fuel rest
        have e1 : encodeValue (.array vs) ++ rest =
            '*' :: (natChars vs.length ++
              ('\r' :: '\n' :: (encodeList vs ++ rest))) := by
          simp [encodeValue]
        rw [e1]
        have hlen : tryNext (natChars vs.length ++
            ('\r' :: '\n' :: (encodeList vs ++ rest))) =
            .ok (some (.int vs.length, _)) :=
          tryNext_natChars _ _ (headNot_crlf_digit _)
        have hnneg : ¬ ((vs.length : Int) < 0) := by omega
        rcases hch with hch | ⟨hch, hlt⟩
        · left
          simp only [parseOne, tryNext_star, hlen, Token.asInt]
          simp [hnneg, Int.toNat_ofNat, hch]
        · right
          constructor
          · simp only [parseOne, tryNext_star, hlen, Token.asInt]
            simp [hnneg, Int.toNat_ofNat, hch]
          · simp [sizeV]; omega

mutual

theorem sizeV_le_encode : ∀ (v : Value), sizeV v ≤ (encodeValue v).length
  | .array vs => by
      have h := sizeL_le_encodeList vs
      simp only [sizeV, encodeValue, List.length_cons, List.length_append]
      omega
  | .str sv => by
      simp only [sizeV, encodeValue, List.length_append, List.length_cons,
        List.length_nil]
      omega
  | .int i => by
      simp only [sizeV, encodeValue, List.length_append, List.length_cons,
        List.length_nil]
      omega

theorem sizeL_le_encodeList : ∀ (vs : List Value), sizeL vs ≤ (encodeList vs).length
  | [] => Nat.le_refl 0
  | v :: tl => by
      have h1 := sizeV_le_encode v
      have h2 := sizeL_le_encodeList tl
      simp only [sizeL, encodeList, List.length_append]
      omega

end

/-! ## Truncated inputs: helper lemmas -/

theorem take_app_le {α : Type} {a b : List α} {k : Nat} (h : k ≤ a.length) :
    (a ++ b).take k = a.take k := by
  rw [List.take_append_eq_append_take, Nat.sub_eq_zero_of_le h, List.take_zero,
    List.append_nil]

theorem take_app_ge {α : Type} {a b : List α} {k : Nat} (h : a.length ≤ k) :
    (a ++ b).take k = a ++ b.take (k - a.length) := by
  rw [List.take_append_eq_append_take, List.take_of_length_le h]

theorem take_pos_ne_nil {α : Type} {l : List α} {k : Nat} (hk : 0 < k) (hl : l ≠ []) :
    l.take k ≠ [] := by
  cases l with
  | nil => exact absurd rfl hl
  | cons x xs => cases k with
    | zero => omega
    | succ k => simp

theorem tryNext_alpha_end {c : Char} (hc : isAlphaCh c = true)
    (cs : List Char) (hcs : ∀ x ∈ cs, isAlphaCh x = true) :
    tryNext (c :: cs) = .ok (some (.str (c :: cs), [])) := by
  have h := tryNext_alpha hc cs [] hcs (headNot_nil _)
  rwa [List.append_nil] at h

theorem tryNext_digit_end {c : Char} (h0 : c ≠ '0') (hd : isDigitCh c = true)
    (ds : List Char) (hds : ∀ x ∈ ds, isDigitCh x = true) :
    tryNext (c :: ds) = .ok (some (.int (digitsVal (c :: ds)), [])) := by
  have h := tryNext_digit h0 hd ds [] hds (headNot_nil _)
  rwa [List.append_nil] at h

/-- Lexing a nonempty prefix of a printed natural number yields an integer
token with some nonnegative value and consumes the whole prefix. -/
theorem tryNext_natChars_take (n k : Nat) (h1 : 1 ≤ k) (h2 : k ≤ (natChars n).length) :
    ∃ (m : Nat), tryNext ((natChars n).take k) = .ok (some (.int (m : Int), [])) := by
  by_cases hn : n = 0
  · subst hn
    have hlen : (natChars 0).length = 1 := rfl
    have hk : k = 1 := by omega
    subst hk
    exact ⟨0, rfl⟩
  · cases hchars : natChars n with
    | nil => exact absurd hchars (natChars_ne_nil n)
    | cons c t =>
      have hdigs : ∀ x ∈ natChars n, isDigitCh x = true := natChars_digits n
      rw [hchars] at hdigs
      have hc0 : c ≠ '0' := by
        have := natCharsAux_head (n + 1) n (Nat.pos_of_ne_zero hn) (by omega) c t
        unfold natChars at hchars
        rw [if_neg hn] at hchars
        exact this hchars
      have hc : isDigitCh c = true := hdigs c (by simp)
      have ht : ∀ x ∈ t.take (k - 1), isDigitCh x = true := fun x hx =>
        hdigs x (by simp [List.mem_of_mem_take hx])
      refine ⟨digitsVal (c :: t.take (k - 1)), ?_⟩
      have htake : (c :: t).take k = c :: t.take (k - 1) := by
        cases k with
        | zero => omega
        | succ k => simp [List.take_succ_cons]
      rw [htake]
      exact tryNext_digit_end hc0 hc _ ht

theorem childLoop_nil_pos (fuel m : Nat) (hm : 0 < m) :
    childLoop (fun t => parseOne fuel t) m [] = .ok none := by
  cases m with
  | zero => omega
  | succ m => simp [childLoop, parseOne_nil]

theorem childLoop_cr_pos (fuel m : Nat) (hm : 0 < m) :
    childLoop (fun t => parseOne fuel t) m ['\r'] = .ok none := by
  cases m with
  | zero => omega
  | succ m => simp [childLoop, parseOne_cr]

theorem childLoop_crlf_pos (fuel m : Nat) (hm : 0 < m) :
    childLoop (fun t => parseOne fuel t) m ['\r', '\n'] = .ok none := by
  cases m with
  | zero => omega
  | succ m => simp [childLoop, parseOne_crlf, parseOne_nil]

/-! ## Truncated inputs: outcome of parsing a strict prefix of an encoding

The outcome of the parser on a truncated encoding: either a partial frame,
or a complete value whose remainder is empty or the lone CR of a cut
trailing CRLF (so the consumed count never exceeds the prefix length), or —
exactly when the cut dangles the minus sign of a null-bulk length marker —
an `InvalidToken` error. -/

/-- Outcome classification for `parseOne` on a truncated input `t`. -/
def cutOutcome (t : List Char) (r : Except PErr (Option (Value × List Char))) : Prop :=
  r = .ok none ∨
  (∃ w rem, r = .ok (some (w, rem)) ∧ (rem = [] ∨ rem = ['\r'])) ∨
  (r = .error (.resp .invalidToken) ∧ t.getLast? = some '-')

/-- Outcome classification for the array child loop on a truncated input. -/
def cutOutcomeL (t : List Char) (r : Except PErr (Option (List Value × List Char))) : Prop :=
  r = .ok none ∨
  (∃ ws rem, r = .ok (some (ws, rem)) ∧ (rem = [] ∨ rem = ['\r'])) ∨
  (r = .error (.resp .invalidToken) ∧ t.getLast? = some '-')

theorem cutChildren (vs : List Value)
    (Hrt : ∀ v ∈ vs, ∀ (fuel : Nat) (rest : List Char),
      parseOne fuel (encodeValue v ++ rest) = .ok (some (v, '\r' :: '\n' :: rest)) ∨
      (parseOne fuel (encodeValue v ++ rest) = .ok none ∧ fuel < sizeV v))
    (Hcut : ∀ v ∈ vs, ∀ (fuel j : Nat), j < (encodeValue v).length →
      cutOutcome ((encodeValue v).take j) (parseOne fuel ((encodeValue v).take j))) :
    ∀ (fuel m : Nat), 0 < m → m < (encodeList vs).length →
      cutOutcomeL ((encodeList vs).take m)
        (childLoop (fun t => parseOne fuel t) vs.length
          ('\r' :: '\n' :: (encodeList vs).take m)) := by
  induction vs with
  | nil =>
    intro fuel m hm hlt
    simp [encodeList] at hlt
  | cons v tl ih =>
    intro fuel m hm hlt
    have hencl : encodeList (v :: tl) = encodeValue v ++ encodeList tl := rfl
    have hlen : (encodeList (v :: tl)).length =
        (encodeValue v).length + (encodeList tl).length := by
      rw [hencl, List.length_append]
    by_cases hcase : m < (encodeValue v).length
    · -- the cut falls inside the first child
      have htake : (encodeList (v :: tl)).take m = (encodeValue v).take m := by
        rw [hencl, take_app_le (by omega)]
      have hc := Hcut v (by simp) fuel m hcase
      rw [htake]
      simp only [List.length_cons, childLoop, parseOne_crlf]
      rcases hc with hc | ⟨w, rem, hc, hrem⟩ | ⟨hc, hl⟩
      · left; simp only [hc]
      · cases tl with
        | nil =>
          right; left
          refine ⟨[w], rem, ?_, hrem⟩
          simp only [hc, List.length_nil, childLoop]
        | cons u tl' =>
          left
          have hstop : childLoop (fun t => parseOne fuel t) (u :: tl').length rem =
              .ok none := by
            rcases hrem with h | h <;> subst h
            · exact childLoop_nil_pos fuel _ (by simp)
            · exact childLoop_cr_pos fuel _ (by simp)
          simp only [hc, hstop]
      · right; right
        exact ⟨by simp only [hc], hl⟩
    · by_cases hcase2 : m = (encodeValue v).length
      · -- the cut falls exactly at the end of the first child
        have htake : (encodeList (v :: tl)).take m = encodeValue v := by
          rw [hencl, take_app_ge (by omega)]
          simp [hcase2]
        have htl : tl ≠ [] := by
          intro h
          subst h
          simp [encodeList] at hlt
          omega
        have hrt := Hrt v (by simp) fuel []
        rw [List.append_nil] at hrt
        rw [htake]
        left
        simp only [List.length_cons, childLoop, parseOne_crlf]
        rcases hrt with hrt | ⟨hrt, _⟩
        · have hstop : childLoop (fun t => parseOne fuel t) tl.length ['\r', '\n'] =
              .ok none :=
            childLoop_crlf_pos fuel _ (by cases tl with
              | nil => exact absurd rfl htl
              | cons _ _ => simp)
          simp only [hrt, hstop]
        · simp only [hrt]
      · -- the cut falls inside the tail
        have hm' : 0 < m - (encodeValue v).length := by omega
        have hlt' : m - (encodeValue v).length < (encodeList tl).length := by omega
        have htake : (encodeList (v :: tl)).take m =
            encodeValue v ++ (encodeList tl).take (m - (encodeValue v).length) := by
          rw [hencl, take_app_ge (by omega)]
        have hrt := Hrt v (by simp) fuel ((encodeList tl).take (m - (encodeValue v).length))
        have hih := ih (fun w hw => Hrt w (by simp [hw]))
          (fun w hw => Hcut w (by simp [hw])) fuel (m - (encodeValue v).length) hm' hlt'
        rw [htake]
        simp only [List.length_cons, childLoop, parseOne_crlf]
        rcases hrt with hrt | ⟨hrt, _⟩
        · rcases hih with hih | ⟨ws, rem, hih, hrem⟩ | ⟨hih, hl⟩
          · left
            simp only [hrt, hih]
          · right; left
            refine ⟨v :: ws, rem, ?_, hrem⟩
            simp only [hrt, hih]
          · right; right
            constructor
            · simp only [hrt, hih]
            · rw [List.getLast?_append_of_ne_nil]
              · exact hl
              · exact take_pos_ne_nil hm' (by
                  intro h
                  rw [h] at hlt'
                  simp at hlt')
        · left
          simp only [hrt]

theorem cutAux : ∀ (N : Nat) (v : Value), sizeV v ≤ N → goodValue v = true →
    ∀ (fuel j : Nat), j < (encodeValue v).length →
      cutOutcome ((encodeValue v).take j) (parseOne fuel ((encodeValue v).take j)) := by
  intro N
  induction N with
  | zero => intro v hs; have := sizeV_pos v; omega
  | succ N ihN =>
    intro v hs hg fuel j hj
    cases fuel with
    | zero => left; rfl
    | succ fuel =>
      cases v with
      | int i => simp [goodValue] at hg
      | str sv =>
        cases sv with
        | null => simp [goodValue] at hg
        | simple s =>
          obtain ⟨c, cs, rfl, hc, hcs⟩ := goodStr_parts (by simpa [goodValue] using hg)
          have henc : encodeValue (.str (.simple (c :: cs))) =
              '+' :: ((c :: cs) ++ ['\r', '\n']) := by
            simp [encodeValue, encodeRStr]
          rw [henc] at hj ⊢
          simp only [List.length_cons, List.length_append, List.length_nil] at hj
          cases j with
          | zero => left; simp only [List.take_zero]; exact parseOne_nil _
          | succ k =>
            rw [List.take_succ_cons]
            cases k with
            | zero =>
              left
              simp only [List.take_zero, parseOne, tryNext_plus, tryNext_nil]
            | succ k' =>
              by_cases hkle : k' + 1 ≤ cs.length + 1
              · have htk : ((c :: cs) ++ ['\r', '\n']).take (k' + 1) =
                    c :: cs.take k' := by
                  rw [take_app_le (by simp; omega), List.take_succ_cons]
                rw [htk]
                right; left
                refine ⟨.str (.simple (c :: cs.take k')), [], ?_, Or.inl rfl⟩
                have halpha := tryNext_alpha_end hc (cs.take k')
                  (fun x hx => hcs x (List.mem_of_mem_take hx))
                simp only [parseOne, tryNext_plus, halpha]
              · have hk : k' + 1 = cs.length + 2 := by
                  simp at hj; omega
                have htk : ((c :: cs) ++ ['\r', '\n']).take (k' + 1) =
                    (c :: cs) ++ ['\r'] := by
                  rw [take_app_ge (by simp; omega)]
                  have : k' + 1 - (c :: cs).length = 1 := by simp; omega
                  rw [this]
                  rfl
                rw [htk]
                right; left
                refine ⟨.str (.simple (c :: cs)), ['\r'], ?_, Or.inr rfl⟩
                have halpha := tryNext_alpha hc cs ['\r'] hcs rfl
                simp only [List.cons_append, parseOne, tryNext_plus, halpha]
        | bulk ob =>
          cases ob with
          | none =>
            have henc : encodeValue (.str (.bulk none)) = ['$', '-', '1', '\r', '\n'] := rfl
            rw [henc] at hj ⊢
            simp only [List.length_cons, List.length_nil] at hj
            have h1 : tryNext (['-'] : List Char) = .error .invalidToken := rfl
            have h2 : tryNext (['-', '1'] : List Char) =
                .ok (some (.int (-1), [])) := rfl
            have h3 : tryNext (['-', '1', '\r'] : List Char) =
                .ok (some (.int (-1), ['\r'])) := rfl
            interval_cases j
            · left; exact parseOne_nil _
            · left
              simp only [List.take_succ_cons, List.take_zero, parseOne,
                tryNext_dollar, parseBulk, tryNext_nil]
            · right; right
              constructor
              · simp only [show (['$', '-', '1', '\r', '\n'].take 2) = ['$', '-'] from rfl,
                  parseOne, tryNext_dollar, parseBulk, h1]
              · rfl
            · right; left
              refine ⟨.str (.bulk none), [], ?_, Or.inl rfl⟩
              simp only [show (['$', '-', '1', '\r', '\n'].take 3) = ['$', '-', '1'] from rfl,
                parseOne, tryNext_dollar, parseBulk, h2, Token.asInt]
              simp
            · right; left
              refine ⟨.str (.bulk none), ['\r'], ?_, Or.inr rfl⟩
              simp only [show (['$', '-', '1', '\r', '\n'].take 4) = ['$', '-', '1', '\r'] from rfl,
                parseOne, tryNext_dollar, parseBulk, h3, Token.asInt]
              simp
          | some s =>
            obtain ⟨c, cs, rfl, hc, hcs⟩ := goodStr_parts (by simpa [goodValue] using hg)
            have hall : ∀ x ∈ c :: cs, isAlphaCh x = true := by
              intro x hx
              rcases List.mem_cons.mp hx with h | h
              · subst h; exact hc
              · exact hcs x h
            have hnval : byteLenL (c :: cs) = cs.length + 1 := by
              rw [byteLenL_alpha _ hall]; rfl
            have henc : encodeValue (.str (.bulk (some (c :: cs)))) =
                '$' :: (natChars (byteLenL (c :: cs)) ++
                  ('\r' :: '\n' :: ((c :: cs) ++ ['\r', '\n']))) := by
              simp [encodeValue, encodeRStr]
            rw [henc] at hj ⊢
            simp only [List.length_cons, List.length_append, List.length_nil] at hj
            cases j with
            | zero => left; simp only [List.take_zero]; exact parseOne_nil _
            | succ k =>
              rw [List.take_succ_cons]
              simp only [parseOne, tryNext_dollar]
              by_cases hk0 : k = 0
              · subst hk0
                left
                simp only [List.take_zero, parseBulk, tryNext_nil]
              · by_cases hkd : k ≤ (natChars (byteLenL (c :: cs))).length
                · -- cut inside the length digits
                  have htk : (natChars (byteLenL (c :: cs)) ++
                      ('\r' :: '\n' :: ((c :: cs) ++ ['\r', '\n']))).take k =
                      (natChars (byteLenL (c :: cs))).take k :=
                    take_app_le hkd
                  obtain ⟨m, hm⟩ := tryNext_natChars_take (byteLenL (c :: cs)) k
                    (by omega) hkd
                  rw [htk]
                  left
                  have hm1 : ¬ ((m : Int) = -1) := by omega
                  have hm2 : ¬ ((m : Int) < 0) := by omega
                  simp only [parseBulk, hm, Token.asInt, if_neg hm1, if_neg hm2,
                    tryNext_nil]
                · -- the length digits are complete
                  have hd := List.length_pos.mpr (natChars_ne_nil (byteLenL (c :: cs)))
                  have hne1 : ¬ ((byteLenL (c :: cs) : Int) = -1) := by omega
                  have hnneg : ¬ ((byteLenL (c :: cs) : Int) < 0) := by omega
                  by_cases hk1 : k = (natChars (byteLenL (c :: cs))).length + 1
                  · have htk : (natChars (byteLenL (c :: cs)) ++
                        ('\r' :: '\n' :: ((c :: cs) ++ ['\r', '\n']))).take k =
                        natChars (byteLenL (c :: cs)) ++ ['\r'] := by
                      rw [take_app_ge (by omega)]
                      have : k - (natChars (byteLenL (c :: cs))).length = 1 := by omega
                      rw [this]
                      rfl
                    rw [htk]
                    left
                    have hlex := tryNext_natChars (byteLenL (c :: cs)) ['\r'] rfl
                    simp only [parseBulk, hlex, Token.asInt, if_neg hne1, if_neg hnneg,
                      tryNext_cr, tryNext_nil]
                  · by_cases hk2 : k = (natChars (byteLenL (c :: cs))).length + 2
                    · have htk : (natChars (byteLenL (c :: cs)) ++
                          ('\r' :: '\n' :: ((c :: cs) ++ ['\r', '\n']))).take k =
                          natChars (byteLenL (c :: cs)) ++ ['\r', '\n'] := by
                        rw [take_app_ge (by omega)]
                        have : k - (natChars (byteLenL (c :: cs))).length = 2 := by omega
                        rw [this]
                        rfl
                      rw [htk]
                      left
                      have hlex := tryNext_natChars (byteLenL (c :: cs)) ['\r', '\n'] rfl
                      simp only [parseBulk, hlex, Token.asInt, if_neg hne1, if_neg hnneg,
                        tryNext_cr, tryNext_lf, tryNext_nil]
                    · -- the cut reaches into the payload or its trailing CRLF
                      by_cases hk3 : k ≤ (natChars (byteLenL (c :: cs))).length + 2 + cs.length + 1
                      · -- inside the payload
                        have htk : (natChars (byteLenL (c :: cs)) ++
                            ('\r' :: '\n' :: ((c :: cs) ++ ['\r', '\n']))).take k =
                            natChars (byteLenL (c :: cs)) ++ ('\r' :: '\n' ::
                              (c :: cs.take (k - (natChars (byteLenL (c :: cs))).length - 3))) := by
                          rw [take_app_ge (by omega)]
                          congr 1
                          have hk' : k - (natChars (byteLenL (c :: cs))).length =
                              (k - (natChars (byteLenL (c :: cs))).length - 3) + 3 := by
                            omega
                          rw [hk']
                          simp only [List.cons_append, List.take_succ_cons]
                          rw [take_app_le (by omega)]
                          have hfix : k - (natChars (byteLenL (c :: cs))).length - 3 + 3 - 3 =
                              k - (natChars (byteLenL (c :: cs))).length - 3 := by omega
                          rw [hfix]
                        rw [htk]
                        have hlex := tryNext_natChars (byteLenL (c :: cs))
                          ('\r' :: '\n' ::
                            (c :: cs.take (k - (natChars (byteLenL (c :: cs))).length - 3))) rfl
                        have halpha := tryNext_alpha_end hc
                          (cs.take (k - (natChars (byteLenL (c :: cs))).length - 3))
                          (fun x hx => hcs x (List.mem_of_mem_take hx))
                        have hblen : byteLenL (c :: cs.take
                            (k - (natChars (byteLenL (c :: cs))).length - 3)) =
                            (cs.take (k - (natChars (byteLenL (c :: cs))).length - 3)).length + 1 := by
                          rw [byteLenL_alpha _ (by
                            intro x hx
                            rcases List.mem_cons.mp hx with h | h
                            · subst h; exact hc
                            · exact hcs x (List.mem_of_mem_take h))]
                          rfl
                        have hlen_take : (cs.take
                            (k - (natChars (byteLenL (c :: cs))).length - 3)).length =
                            k - (natChars (byteLenL (c :: cs))).length - 3 := by
                          rw [List.length_take]
                          omega
                        by_cases hfull : k = (natChars (byteLenL (c :: cs))).length + 2 + cs.length + 1
                        · -- full payload, frame complete
                          have htake_all : cs.take
                              (k - (natChars (byteLenL (c :: cs))).length - 3) = cs := by
                            apply List.take_of_length_le
                            omega
                          rw [htake_all] at hlex halpha ⊢
                          right; left
                          refine ⟨.str (.bulk (some (c :: cs))), [], ?_, Or.inl rfl⟩
                          simp [parseBulk, hlex, Token.asInt, hne1, hnneg,
                            tryNext_cr, tryNext_lf, halpha, tokenIntoStr, Int.toNat_ofNat]
                        · -- partial payload: length mismatch, partial frame
                          left
                          have hmis : ¬ (byteLenL (c :: cs.take
                              (k - (natChars (byteLenL (c :: cs))).length - 3)) =
                              byteLenL (c :: cs)) := by
                            rw [hblen, hlen_take]
                            omega
                          simp [parseBulk, hlex, Token.asInt, hne1, hnneg,
                            tryNext_cr, tryNext_lf, halpha, tokenIntoStr, Int.toNat_ofNat,
                            hmis]
                      · -- inside the trailing CRLF after the payload
                        have hk4 : k = (natChars (byteLenL (c :: cs))).length + 2 + cs.length + 2 := by
                          omega
                        have htk : (natChars (byteLenL (c :: cs)) ++
                            ('\r' :: '\n' :: ((c :: cs) ++ ['\r', '\n']))).take k =
                            natChars (byteLenL (c :: cs)) ++ ('\r' :: '\n' ::
                              (c :: (cs ++ ['\r']))) := by
                          rw [take_app_ge (by omega)]
                          congr 1
                          have hk' : k - (natChars (byteLenL (c :: cs))).length =
                              (cs.length + 1) + 3 := by omega
                          rw [hk']
                          simp only [List.cons_append, List.take_succ_cons]
                          rw [take_app_ge (by omega)]
                          have h1 : cs.length + 1 - cs.length = 1 := by omega
                          rw [h1]
                          rfl
                        rw [htk]
                        have hlex := tryNext_natChars (byteLenL (c :: cs))
                          ('\r' :: '\n' :: (c :: (cs ++ ['\r']))) rfl
                        have halpha := tryNext_alpha hc cs ['\r'] hcs rfl
                        right; left
                        refine ⟨.str (.bulk (some (c :: cs))), ['\r'], ?_, Or.inr rfl⟩
                        simp [parseBulk, hlex, Token.asInt, hne1, hnneg,
                          tryNext_cr, tryNext_lf, halpha, tokenIntoStr, Int.toNat_ofNat]
      | array vs =>
        have hgl : goodList vs = true := by simpa [goodValue] using hg
        have hsz : sizeL vs ≤ N := by simp [sizeV] at hs; omega
        have Hrt : ∀ w ∈ vs, ∀ (f : Nat) (r : List Char),
            parseOne f (encodeValue w ++ r) = .ok (some (w, '\r' :: '\n' :: r)) ∨
            (parseOne f (encodeValue w ++ r) = .ok none ∧ f < sizeV w) :=
          fun w hw f r => rtAux (sizeV w) w le_rfl (goodList_mem vs hgl w hw) f r
        have Hcut : ∀ w ∈ vs, ∀ (f jj : Nat), jj < (encodeValue w).length →
            cutOutcome ((encodeValue w).take jj) (parseOne f ((encodeValue w).take jj)) :=
          fun w hw f jj hjj => ihN w (le_trans (sizeV_mem_le vs w hw) hsz)
            (goodList_mem vs hgl w hw) f jj hjj
        have henc : encodeValue (.array vs) =
            '*' :: (natChars vs.length ++ ('\r' :: '\n' :: encodeList vs)) := by
          simp [encodeValue]
        rw [henc] at hj ⊢
        simp only [List.length_cons, List.length_append, List.length_nil] at hj
        cases j with
        | zero => left; simp only [List.take_zero]; exact parseOne_nil _
        | succ k =>
          rw [List.take_succ_cons]
          simp only [parseOne, tryNext_star]
          by_cases hk0 : k = 0
          · subst hk0
            left
            simp only [List.take_zero, tryNext_nil]
          · by_cases hkd : k ≤ (natChars vs.length).length
            · -- cut inside the length digits
              have htk : (natChars vs.length ++ ('\r' :: '\n' :: encodeList vs)).take k =
                  (natChars vs.length).take k :=
                take_app_le hkd
              obtain ⟨m, hm⟩ := tryNext_natChars_take vs.length k (by omega) hkd
              rw [htk]
              have hm2 : ¬ ((m : Int) < 0) := by omega
              by_cases hmz : m = 0
              · subst hmz
                right; left
                refine ⟨.array [], [], ?_, Or.inl rfl⟩
                simp only [hm, Token.asInt, if_neg hm2, Int.toNat_ofNat, childLoop]
              · left
                have hstop := childLoop_nil_pos fuel m (Nat.pos_of_ne_zero hmz)
                simp only [hm, Token.asInt, if_neg hm2, Int.toNat_ofNat, hstop]
            · have hd := List.length_pos.mpr (natChars_ne_nil vs.length)
              have hnneg : ¬ ((vs.length : Int) < 0) := by omega
              by_cases hk1 : k = (natChars vs.length).length + 1
              · -- the length plus a lone CR
                have htk : (natChars vs.length ++ ('\r' :: '\n' :: encodeList vs)).take k =
                    natChars vs.length ++ ['\r'] := by
                  rw [take_app_ge (by omega)]
                  have : k - (natChars vs.length).length = 1 := by omega
                  rw [this]
                  rfl
                rw [htk]
                have hlex := tryNext_natChars vs.length ['\r'] rfl
                by_cases hL : vs.length = 0
                · right; left
                  refine ⟨.array [], ['\r'], ?_, Or.inr rfl⟩
                  rw [hL] at hlex
                  rw [hL]
                  simp [hlex, Token.asInt, childLoop]
                · left
                  have hstop := childLoop_cr_pos fuel vs.length (Nat.pos_of_ne_zero hL)
                  simp only [hlex, Token.asInt, if_neg hnneg, Int.toNat_ofNat, hstop]
              · by_cases hk2 : k = (natChars vs.length).length + 2
                · -- the length plus the full CRLF; the element list is nonempty
                  have hvs : vs ≠ [] := by
                    intro h
                    subst h
                    simp [encodeList] at hj hk2
                    omega
                  have htk : (natChars vs.length ++ ('\r' :: '\n' :: encodeList vs)).take k =
                      natChars vs.length ++ ['\r', '\n'] := by
                    rw [take_app_ge (by omega)]
                    have : k - (natChars vs.length).length = 2 := by omega
                    rw [this]
                    rfl
                  rw [htk]
                  have hlex := tryNext_natChars vs.length ['\r', '\n'] rfl
                  left
                  have hstop := childLoop_crlf_pos fuel vs.length
                    (List.length_pos.mpr hvs)
                  simp only [hlex, Token.asInt, if_neg hnneg, Int.toNat_ofNat, hstop]
                · -- the cut reaches into the encoded elements
                  have hm1 : 0 < k - (natChars vs.length).length - 2 := by omega
                  have hm2 : k - (natChars vs.length).length - 2 < (encodeList vs).length := by
                    omega
                  have htk : (natChars vs.length ++ ('\r' :: '\n' :: encodeList vs)).take k =
                      natChars vs.length ++ ('\r' :: '\n' ::
                        (encodeList vs).take (k - (natChars vs.length).length - 2)) := by
                    rw [take_app_ge (by omega)]
                    congr 1
                    have hk' : k - (natChars vs.length).length =
                        (k - (natChars vs.length).length - 2) + 2 := by omega
                    rw [hk']
                    simp only [List.take_succ_cons]
                    have hfix : k - (natChars vs.length).length - 2 + 2 - 2 =
                        k - (natChars vs.length).length - 2 := by omega
                    rw [hfix]
                  rw [htk]
                  have hlex := tryNext_natChars vs.length
                    ('\r' :: '\n' :: (encodeList vs).take (k - (natChars vs.length).length - 2)) rfl
                  have hcc := cutChildren vs Hrt Hcut fuel
                    (k - (natChars vs.length).length - 2) hm1 hm2
                  have hglast : (natChars vs.length ++ ('\r' :: '\n' ::
                      (encodeList vs).take (k - (natChars vs.length).length - 2))).getLast? =
                      ((encodeList vs).take (k - (natChars vs.length).length - 2)).getLast? := by
                    have hsplit : natChars vs.length ++ ('\r' :: '\n' ::
                        (encodeList vs).take (k - (natChars vs.length).length - 2)) =
                        (natChars vs.length ++ ['\r', '\n']) ++
                          (encodeList vs).take (k - (natChars vs.length).length - 2) := by
                      simp [List.append_assoc]
                    rw [hsplit, List.getLast?_append_of_ne_nil]
                    exact take_pos_ne_nil hm1 (by
                      intro h
                      rw [h] at hm2
                      simp at hm2)
                  rcases hcc with hcc | ⟨ws, rem, hcc, hrem⟩ | ⟨hcc, hl⟩
                  · left
                    simp only [hlex, Token.asInt, if_neg hnneg, Int.toNat_ofNat, hcc]
                  · right; left
                    refine ⟨.array ws, rem, ?_, hrem⟩
                    simp only [hlex, Token.asInt, if_neg hnneg, Int.toNat_ofNat, hcc]
                  · right; right
                    constructor
                    · simp only [hlex, Token.asInt, if_neg hnneg, Int.toNat_ofNat, hcc]
                    · rw [List.getLast?_cons, hglast, hl]
                      rfl

/-- Parsing the encoding of a value in the round-trip subset yields exactly
that value, leaving exactly the final CRLF of the encoding as the unconsumed
remainder. -/
theorem parse_encode_good (v : Value) (hv : goodValue v = true) :
    parse (encodeValue v) = .ok (some (v, ['\r', '\n'])) := by
  have h := rtAux (sizeV v) v le_rfl hv ((encodeValue v).length + 1) []
  rw [List.append_nil] at h
  rcases h with h | ⟨_, hlt⟩
  · exact h
  · have := sizeV_le_encode v; omega

/-! ## Store lemmas -/

theorem storeLookup_set_self : ∀ (st : StringStore) (k v : List Char) (e : Option Int),
    storeLookup (storeSet st k v e) k = some ⟨v, e⟩ := by
  intro st k v e
  induction st with
  | nil => simp [storeSet, storeLookup]
  | cons p tl ih =>
    obtain ⟨k0, e0⟩ := p
    by_cases h : k0 = k
    · simp [storeSet, h, storeLookup]
    · simp [storeSet, h, storeLookup, ih]

theorem storeLookup_set_other : ∀ (st : StringStore) (k v : List Char) (e : Option Int)
    (k' : List Char), k' ≠ k →
    storeLookup (storeSet st k v e) k' = storeLookup st k' := by
  intro st k v e k' hk
  have h2 : ¬ (k = k') := fun h => hk h.symm
  induction st with
  | nil => simp [storeSet, storeLookup, h2]
  | cons p tl ih =>
    obtain ⟨k0, e0⟩ := p
    by_cases h : k0 = k
    · subst h
      simp [storeSet, storeLookup, h2]
    · simp [storeSet, h, storeLookup, ih]

theorem tryGet_congr (st1 st2 : StringStore) (k : List Char) (now : Int)
    (h : storeLookup st1 k = storeLookup st2 k) :
    tryGet st1 k now = tryGet st2 k now := by
  simp [tryGet, h]

/-- The reply of a GET, written through `try_get`. -/
theorem handleCommand_get_reply (roleInfo : List (List Char)) (now : Int)
    (st : StringStore) (k : List Char) :
    (handleCommand roleInfo now st (.get k)).1 =
      .ok (match tryGet st k now with
        | some value => Value.bulkV value
        | none => Value.nullBulk) := rfl

/-- The state of the store after a SET on key `k`: the actor either stored
`⟨v, expiry⟩` under `k` (leaving other keys alone), or panicked leaving the
store untouched. -/
theorem handleCommand_set_state (roleInfo : List (List Char)) (now : Int)
    (st : StringStore) (k v : List Char) (e : Option Expiry) (k' : List Char)
    (hk : k' ≠ k) :
    storeLookup (handleCommand roleInfo now st (.set k v e)).2 k' =
      storeLookup st k' := by
  cases e with
  | none =>
    simp only [handleCommand]
    exact storeLookup_set_other st k v none k' hk
  | some ex =>
    simp only [handleCommand]
    cases hu : ex.intoUtc now with
    | noInstant => rfl
    | panicked => rfl
    | instant t => exact storeLookup_set_other st k v (some t) k' hk

/-! ## Specification claims -/

/-- C1 (corrected): the full codec round-trip fails as stated — integers
reach the parser's `todo!()`, a bulk payload that is not a single lexeme
(here containing a space) never completes, and even a successful parse does
not consume the trailing CRLF of the encoding. -/
theorem C1_cex :
    parse (encodeValue (.int 0)) = .error .unimplemented ∧
    parse (encodeValue (.str (.bulk (some ['a', ' ', 'b'])))) = .ok none ∧
    parse (encodeValue (.str (.bulk none))) =
      .ok (some (.str (.bulk none), ['\r', '\n'])) :=
  ⟨by decide, by decide, by decide⟩

/-- C1 (amended): for every value in the round-trip subset — arrays,
simple strings and bulk strings whose payloads are nonempty
ASCII-alphabetic runs, and the null bulk — parsing the encoded bytes
yields exactly the same value and consumes the entire encoding except its
final CRLF (which the lexer's skip only discards on the next decode). -/
theorem C1_roundtrip (v : Value) (hv : goodValue v = true) :
    parse (encodeValue v) = .ok (some (v, ['\r', '\n'])) :=
  parse_encode_good v hv

theorem C1_roundtrip_w :
    goodValue (.array [Value.bulkV ['e', 'c', 'h', 'o'], Value.bulkV ['h', 'e', 'y']]) = true ∧
    parse (encodeValue (.array [Value.bulkV ['e', 'c', 'h', 'o'], Value.bulkV ['h', 'e', 'y']])) =
      .ok (some (.array [Value.bulkV ['e', 'c', 'h', 'o'], Value.bulkV ['h', 'e', 'y']],
        ['\r', '\n'])) :=
  ⟨by decide, C1_roundtrip _ (by decide)⟩

/-- C2 (corrected): the parser CAN error on a strict prefix of valid
bytes: the two-byte prefix `$-` of the valid null-bulk encoding `$-1CRLF`
leaves a dangling minus sign that the lexer rejects as `InvalidToken`. -/
theorem C2_cex :
    parse (encodeValue (.str (.bulk none))) =
      .ok (some (.str (.bulk none), ['\r', '\n'])) ∧
    (encodeValue (.str (.bulk none))).take 2 = ['$', '-'] ∧
    parse ((encodeValue (.str (.bulk none))).take 2) = .error (.resp .invalidToken) :=
  ⟨by decide, by decide, by decide⟩

/-- C2 (amended): on every strict prefix of the encoding of a round-trip
value, the parser signals insufficient input (and then the framer consumes
no bytes), or returns a complete value whose unconsumed remainder is empty
or a lone CR (so it consumed at most the prefix), or — only when the
prefix ends in the dangling `-` of a null-bulk marker — fails with
`InvalidToken`. -/
theorem C2_prefixes (v : Value) (hv : goodValue v = true) (k : Nat)
    (hk : k < (encodeValue v).length) :
    (parse ((encodeValue v).take k) = .ok none ∧
      framerDecodeChars ((encodeValue v).take k) = (.ok none, (encodeValue v).take k)) ∨
    (∃ w rem, parse ((encodeValue v).take k) = .ok (some (w, rem)) ∧
      (rem = [] ∨ rem = ['\r'])) ∨
    (parse ((encodeValue v).take k) = .error (.resp .invalidToken) ∧
      ((encodeValue v).take k).getLast? = some '-') := by
  have h := cutAux (sizeV v) v le_rfl hv (((encodeValue v).take k).length + 1) k hk
  rcases h with h | ⟨w, rem, h, hrem⟩ | ⟨h, hl⟩
  · left
    refine ⟨h, ?_⟩
    simp only [framerDecodeChars,
      (show parse ((encodeValue v).take k) = .ok none from h)]
  · right; left
    exact ⟨w, rem, h, hrem⟩
  · right; right
    exact ⟨h, hl⟩

theorem C2_prefixes_w :
    goodValue (.str (.bulk (some ['h', 'e', 'y']))) = true ∧
    6 < (encodeValue (.str (.bulk (some ['h', 'e', 'y'])))).length ∧
    ((parse ((encodeValue (.str (.bulk (some ['h', 'e', 'y'])))).take 6) = .ok none ∧
      framerDecodeChars ((encodeValue (.str (.bulk (some ['h', 'e', 'y'])))).take 6) =
        (.ok none, (encodeValue (.str (.bulk (some ['h', 'e', 'y'])))).take 6)) ∨
    (∃ w rem, parse ((encodeValue (.str (.bulk (some ['h', 'e', 'y'])))).take 6) =
        .ok (some (w, rem)) ∧ (rem = [] ∨ rem = ['\r'])) ∨
    (parse ((encodeValue (.str (.bulk (some ['h', 'e', 'y'])))).take 6) =
        .error (.resp .invalidToken) ∧
      ((encodeValue (.str (.bulk (some ['h', 'e', 'y'])))).take 6).getLast? = some '-')) :=
  ⟨by decide, by decide, C2_prefixes _ (by decide) 6 (by decide)⟩

/-- C3 (corrected): at the exact boundary t' = t + n the entry is already
expired — `try_get` treats `expiry ≤ now` as absent — so `GET` returns the
null bulk where the claim promised `Bulk(v)`. Here t = 0, n = 1 s, t' =
1000 ms = t + n. -/
theorem C3_cex :
    (handleCommand [] 1000
      ((handleCommand [] 0 [] (.set ['k'] ['v'] (some (.time (.seconds 1))))).2)
      (.get ['k'])).1 = .ok Value.nullBulk ∧
    Value.nullBulk ≠ Value.bulkV ['v'] :=
  ⟨by decide, by decide⟩

/-- C3 (amended): after the actor executes SET k v EX n (replying +OK) at
wall-clock time t (in ms) — provided the n·1000 ms delta fits
`TimeDelta::from_std`'s i64::MAX-millisecond bound AND the resulting
instant t + n·1000 lies within chrono's representable range, the two
conditions under which the SET does not panic — GET k returns Bulk(v) at
every t' STRICTLY before t + n seconds, and the null bulk at every
t' ≥ t + n: the boundary instant itself counts as expired. -/
theorem C3_ttl (roleInfo : List (List Char)) (t : Int) (st : StringStore)
    (k v : List Char) (n : Nat) (hn : (n : Int) * 1000 ≤ i64Max)
    (hrange : minTimestampSecs * 1000 ≤ t + (n : Int) * 1000 ∧
      t + (n : Int) * 1000 ≤ maxTimestampSecs * 1000 + 999) :
    (handleCommand roleInfo t st (.set k v (some (.time (.seconds n))))).1 =
      .ok (Value.simpleV ['O', 'K']) ∧
    (∀ t' : Int, t' < t + (n : Int) * 1000 →
      (handleCommand roleInfo t'
        (handleCommand roleInfo t st (.set k v (some (.time (.seconds n))))).2
        (.get k)).1 = .ok (Value.bulkV v)) ∧
    (∀ t' : Int, t + (n : Int) * 1000 ≤ t' →
      (handleCommand roleInfo t'
        (handleCommand roleInfo t st (.set k v (some (.time (.seconds n))))).2
        (.get k)).1 = .ok Value.nullBulk) := by
  have hms : ((RTime.seconds n).millisOf : Int) = (n : Int) * 1000 := by
    simp [RTime.millisOf]
  have hconv : Expiry.intoUtc t (.time (.seconds n)) =
      .instant (t + (n : Int) * 1000) := by
    simp only [Expiry.intoUtc, hms]
    rw [if_pos hn, if_pos hrange]
  have hstate : (handleCommand roleInfo t st (.set k v (some (.time (.seconds n))))).2 =
      storeSet st k v (some (t + (n : Int) * 1000)) := by
    simp only [handleCommand, hconv]
  have hreply : (handleCommand roleInfo t st (.set k v (some (.time (.seconds n))))).1 =
      .ok (Value.simpleV ['O', 'K']) := by
    simp only [handleCommand, hconv]
  refine ⟨hreply, ?_, ?_⟩
  · intro t' ht
    rw [hstate]
    have hfresh : ¬ (t + (n : Int) * 1000 ≤ t') := by omega
    simp [handleCommand, tryGet, storeLookup_set_self, hfresh]
  · intro t' ht
    rw [hstate]
    simp [handleCommand, tryGet, storeLookup_set_self, ht]

theorem C3_ttl_w :
    ((1 : Nat) : Int) * 1000 ≤ i64Max ∧
    (minTimestampSecs * 1000 ≤ (0 : Int) + ((1 : Nat) : Int) * 1000 ∧
      (0 : Int) + ((1 : Nat) : Int) * 1000 ≤ maxTimestampSecs * 1000 + 999) ∧
    (handleCommand [] 999
      ((handleCommand [] 0 [] (.set ['k'] ['v'] (some (.time (.seconds 1))))).2)
      (.get ['k'])).1 = .ok (Value.bulkV ['v']) ∧
    (handleCommand [] 1000
      ((handleCommand [] 0 [] (.set ['k'] ['v'] (some (.time (.seconds 1))))).2)
      (.get ['k'])).1 = .ok Value.nullBulk :=
  ⟨by decide, ⟨by decide, by decide⟩,
    (C3_ttl [] 0 [] ['k'] ['v'] 1 (by decide) ⟨by decide, by decide⟩).2.1 999 (by decide),
    (C3_ttl [] 0 [] ['k'] ['v'] 1 (by decide) ⟨by decide, by decide⟩).2.2 1000 (by decide)⟩

/-- C4 (confirmed): SET k v with no expiry replies +OK and stores the
entry with its expiry cleared (value and expiry both replaced, whatever
was there before); every subsequent GET k returns Bulk(v) at any time, and
the entry survives any executed command that is not a SET on k. -/
theorem C4_set_get (roleInfo : List (List Char)) (now : Int) (st : StringStore)
    (k v : List Char) :
    (handleCommand roleInfo now st (.set k v none)).1 = .ok (Value.simpleV ['O', 'K']) ∧
    storeLookup (handleCommand roleInfo now st (.set k v none)).2 k = some ⟨v, none⟩ ∧
    (∀ now' : Int,
      (handleCommand roleInfo now' (handleCommand roleInfo now st (.set k v none)).2
        (.get k)).1 = .ok (Value.bulkV v)) ∧
    (∀ (now' : Int) (st' : StringStore) (cmd : Command),
      storeLookup st' k = some ⟨v, none⟩ →
      (∀ v' e', cmd ≠ .set k v' e') →
      storeLookup (handleCommand roleInfo now' st' cmd).2 k = some ⟨v, none⟩) := by
  refine ⟨by simp [handleCommand], ?_, ?_, ?_⟩
  · simp only [handleCommand]
    exact storeLookup_set_self st k v none
  · intro now'
    simp only [handleCommand]
    simp [tryGet, storeLookup_set_self st k v none]
  · intro now' st' cmd hlook hnotset
    cases cmd with
    | ping m => simpa [handleCommand] using hlook
    | echo m => simpa [handleCommand] using hlook
    | info s =>
      simp only [handleCommand]
      split <;> simpa using hlook
    | get k2 => simpa [handleCommand] using hlook
    | set k2 v2 e2 =>
      have hk2 : k ≠ k2 := by
        intro h
        exact hnotset v2 e2 (by rw [h])
      rw [handleCommand_set_state roleInfo now' st' k2 v2 e2 k hk2]
      exact hlook

theorem C4_set_get_w :
    storeLookup (handleCommand [] 5
        (handleCommand [] 0 [] (.set ['k'] ['v'] none)).2 (.info none)).2 ['k'] =
      some ⟨['v'], none⟩ ∧
    (handleCommand [] 7 (handleCommand [] 0 [] (.set ['k'] ['v'] none)).2
      (.get ['k'])).1 = .ok (Value.bulkV ['v']) :=
  ⟨(C4_set_get [] 0 [] ['k'] ['v']).2.2.2 5
      (handleCommand [] 0 [] (.set ['k'] ['v'] none)).2 (.info none)
      ((C4_set_get [] 0 [] ['k'] ['v']).2.1)
      (fun _ _ h => Command.noConfusion h),
    (C4_set_get [] 0 [] ['k'] ['v']).2.2.1 7⟩

/-- C5 (corrected): INFO with an absent section does NOT behave as INFO
replication — the code substitutes the literal section name `default`,
which fails the case-insensitive `replication` comparison and produces
`UnknownSection("default")` instead of the role-info bulk. -/
theorem C5_cex :
    handleCommand [['x']] 0 [] (.info none) =
      (.err (.command (.info (.unknownSection ['d', 'e', 'f', 'a', 'u', 'l', 't']))), []) ∧
    handleCommand [['x']] 0 [] (.info none) ≠
      (.ok (Value.bulkV (joinCRLF [['x']])), []) :=
  ⟨by decide, by decide⟩

/-- C5 (amended): INFO with an absent section substitutes the section name
`default`, which yields an `UnknownSection("default")` error; the bulk of
the role's info lines joined by CRLF is produced exactly for a present
section equal to `replication` ignoring ASCII case, and every other
present section yields `UnknownSection` with that name. -/
theorem C5_info (roleInfo : List (List Char)) (now : Int) (st : StringStore) :
    handleCommand roleInfo now st (.info none) =
      (.err (.command (.info (.unknownSection ['d', 'e', 'f', 'a', 'u', 'l', 't']))), st) ∧
    (∀ sec : List Char,
      handleCommand roleInfo now st (.info (some sec)) =
        (if eqIgnoreCase sec ['r', 'e', 'p', 'l', 'i', 'c', 'a', 't', 'i', 'o', 'n'] then
          (.ok (Value.bulkV (joinCRLF roleInfo)), st)
        else (.err (.command (.info (.unknownSection sec))), st))) := by
  constructor
  · simp only [handleCommand, Option.getD]
    rw [if_neg (by decide)]
  · intro sec
    by_cases h : eqIgnoreCase sec ['r', 'e', 'p', 'l', 'i', 'c', 'a', 't', 'i', 'o', 'n'] = true
    · simp [handleCommand, h]
    · simp [handleCommand, h]

theorem C5_info_w :
    handleCommand [['a']] 3 [] (.info none) =
      (.err (.command (.info (.unknownSection ['d', 'e', 'f', 'a', 'u', 'l', 't']))), []) ∧
    handleCommand [['a']] 3 []
        (.info (some ['R', 'e', 'p', 'l', 'i', 'c', 'a', 't', 'i', 'o', 'n'])) =
      (if eqIgnoreCase ['R', 'e', 'p', 'l', 'i', 'c', 'a', 't', 'i', 'o', 'n']
          ['r', 'e', 'p', 'l', 'i', 'c', 'a', 't', 'i', 'o', 'n'] then
        (.ok (Value.bulkV (joinCRLF [['a']])), [])
      else (.err (.command (.info (.unknownSection
        ['R', 'e', 'p', 'l', 'i', 'c', 'a', 't', 'i', 'o', 'n']))), [])) :=
  ⟨(C5_info [['a']] 3 []).1,
    (C5_info [['a']] 3 []).2 ['R', 'e', 'p', 'l', 'i', 'c', 'a', 't', 'i', 'o', 'n']⟩

/-- C6 (corrected): on a command-conversion failure the session does NOT
send a RESP error back: it logs the error, sends nothing, and returns to
reading — the connection stays open but the client is left without a
reply. -/
theorem C6_cex :
    commandTryFrom (Value.int 5) = .error .invalidCommand ∧
    (sessionStep (fun _ => Value.nullBulk) (Value.int 5)).sent = [] ∧
    (sessionStep (fun _ => Value.nullBulk) (Value.int 5)).terminated = false :=
  ⟨by decide, by decide, by decide⟩

/-- C6 (amended): for every inbound value whose conversion to a command
fails, the session logs the error and sends nothing back — no reply of any
kind reaches the client — and the connection is not closed: the session
returns to reading. -/
theorem C6_session_error (reply : Command → Value) (v : Value) (e : CommandError)
    (he : commandTryFrom v = .error e) :
    sessionStep reply v = ⟨[], false⟩ := by
  simp [sessionStep, he]

theorem C6_session_error_w :
    commandTryFrom (Value.int 5) = .error .invalidCommand ∧
    sessionStep (fun _ => Value.nullBulk) (Value.int 5) = ⟨[], false⟩ :=
  ⟨by decide, C6_session_error _ _ .invalidCommand (by decide)⟩

/-- C7: the code violates the claim: a SET whose expiry cannot be
converted to an absolute instant panics through `into_utc().expect(..)` —
it is fatal to the actor, not a logged-and-suppressed error. Witnessed by
`EX 18446744073709551615` (u64::MAX seconds), whose duration exceeds the
`TimeDelta::from_std` bound of i64::MAX milliseconds, so the conversion
yields no instant and the actor panics. -/
theorem C7_panic :
    Expiry.intoUtc 0 (.time (.seconds 18446744073709551615)) = .noInstant ∧
    handleCommand [] 0 []
        (.set ['k'] ['v'] (some (.time (.seconds 18446744073709551615)))) =
      (.panicked, []) :=
  ⟨by decide, by decide⟩

/-- C8 (confirmed): each REPLCONF step proceeds exactly when the next
inbound value exists and has a string form (simple or bulk) equal to `OK`
ignoring ASCII case; an exhausted connection yields `Closed`, a received
value with no `OK` string form yields `InvalidResponse`, and a failed
handshake is propagated by the replica's start as an error that aborts
startup. -/
theorem C8_handshake :
    (∀ (v : Value) (s : List Char) (rest : List (Except RespError Value)),
      v.asStr = some s → eqIgnoreCase s ['o', 'k'] = true →
      replconf (.ok v :: rest) = .ok rest) ∧
    replconf [] = .error .closed ∧
    (∀ (e : RespError) (rest : List (Except RespError Value)),
      replconf (.error e :: rest) = .error (.resp e)) ∧
    (∀ (v : Value) (rest : List (Except RespError Value)),
      (∀ s, v.asStr = some s → eqIgnoreCase s ['o', 'k'] = false) →
      replconf (.ok v :: rest) = .error (.invalidResponse v)) ∧
    (∀ (inbox : List (Except RespError Value)) (e : HandshakeError),
      handshake inbox = .error e → replicaStart inbox = .error (.standard e)) := by
  refine ⟨?_, rfl, fun e rest => rfl, ?_, ?_⟩
  · intro v s rest hs hok
    simp [replconf, hs, hok]
  · intro v rest hno
    cases hv : v.asStr with
    | none => simp [replconf, hv]
    | some s => simp [replconf, hv, hno s hv]
  · intro inbox e h
    simp [replicaStart, h]

theorem C8_handshake_w :
    replconf [.ok (Value.simpleV ['O', 'K'])] = .ok [] ∧
    replicaStart [.ok (Value.simpleV ['P', 'O', 'N', 'G'])] =
      .error (.standard .closed) :=
  ⟨C8_handshake.1 (Value.simpleV ['O', 'K']) ['O', 'K'] [] (by decide) (by decide),
    C8_handshake.2.2.2.2 [.ok (Value.simpleV ['P', 'O', 'N', 'G'])] .closed (by decide)⟩

/-- C9 (confirmed): a SET on key k leaves the entry of every other key
unchanged (same value and expiry), so a GET on any k' ≠ k returns the same
reply after the SET as immediately before it. -/
theorem C9_frame (roleInfo : List (List Char)) (now : Int) (st : StringStore)
    (k v : List Char) (e : Option Expiry) (k' : List Char) (hk : k' ≠ k) :
    storeLookup (handleCommand roleInfo now st (.set k v e)).2 k' =
      storeLookup st k' ∧
    (∀ now' : Int,
      (handleCommand roleInfo now'
        (handleCommand roleInfo now st (.set k v e)).2 (.get k')).1 =
      (handleCommand roleInfo now' st (.get k')).1) := by
  have hstate := handleCommand_set_state roleInfo now st k v e k' hk
  refine ⟨hstate, ?_⟩
  intro now'
  rw [handleCommand_get_reply, handleCommand_get_reply,
    tryGet_congr ((handleCommand roleInfo now st (.set k v e)).2) st k' now' hstate]

theorem C9_frame_w :
    storeLookup (handleCommand [] 0 [(['a'], ⟨['x'], none⟩)]
        (.set ['k'] ['v'] none)).2 ['a'] =
      storeLookup [(['a'], ⟨['x'], none⟩)] ['a'] ∧
    (handleCommand [] 3 (handleCommand [] 0 [(['a'], ⟨['x'], none⟩)]
        (.set ['k'] ['v'] none)).2 (.get ['a'])).1 =
      (handleCommand [] 3 [(['a'], ⟨['x'], none⟩)] (.get ['a'])).1 :=
  ⟨(C9_frame [] 0 [(['a'], ⟨['x'], none⟩)] ['k'] ['v'] none ['a'] (by decide)).1,
    (C9_frame [] 0 [(['a'], ⟨['x'], none⟩)] ['k'] ['v'] none ['a'] (by decide)).2 3⟩

/-- C10 (confirmed): the framed decoder validates the whole buffered byte
sequence as UTF-8 before parsing: whenever the buffer — here split as a
front part and later bytes — is not valid UTF-8 anywhere, decode fails
with the (fatal) `Utf8Error` and consumes nothing, even when a complete
valid value sits at the front. -/
theorem C10_utf8 (bs1 bs2 : List Nat) (h : utf8Decode (bs1 ++ bs2) = none) :
    framerDecode (bs1 ++ bs2) = (.failed .utf8Error, bs1 ++ bs2) := by
  simp [framerDecode, h]

theorem C10_utf8_w :
    utf8Decode ([42, 49, 13, 10, 36, 52, 13, 10, 80, 73, 78, 71, 13, 10] ++ [255]) = none ∧
    (framerDecode [42, 49, 13, 10, 36, 52, 13, 10, 80, 73, 78, 71, 13, 10]).1 =
      .value (Value.array [Value.bulkV ['P', 'I', 'N', 'G']]) ∧
    framerDecode ([42, 49, 13, 10, 36, 52, 13, 10, 80, 73, 78, 71, 13, 10] ++ [255]) =
      (.failed .utf8Error, [42, 49, 13, 10, 36, 52, 13, 10, 80, 73, 78, 71, 13, 10] ++ [255]) :=
  ⟨by decide, by decide,
    C10_utf8 [42, 49, 13, 10, 36, 52, 13, 10, 80, 73, 78, 71, 13, 10] [255] (by decide)⟩

end Memora
